import Mathlib

/-!
# Verification of the LoopringAPI EdDSA signing subsystem

This file gives a shallow embedding, in Lean 4, of the cryptographic signing
subsystem of the LoopringAPI repository (the `loopring/util/sdk` tree:
modular arithmetic, the Baby Jubjub curve, the MiMC/Poseidon/Pedersen hash
primitives, the generic EdDSA scheme and the URL-request signer), together
with proofs and refutations of a fixed list of specification claims.

Conventions used throughout:
* Python integers are embedded as `Nat` (or `Int` where the source may go
  negative), with explicit `% m` where the source reduces.
* Field elements of the fixed SNARK field are embedded as `ZMod JUBJUB_Q`.
* Python functions that can raise are embedded as `Option`/sum-like results.
* Loops are embedded as structural recursion; where a Python `while` loop has
  no structural decrease on its argument we recurse on an explicit fuel
  argument and prove the fuel sufficient.
-/

set_option maxRecDepth 200000
set_option maxHeartbeats 1000000
set_option synthInstance.maxHeartbeats 1000000

namespace LoopringSDK

/-! ## Protocol constants (`loopring/util/enums.py`, class `IntSig`) -/

def SNARK_SCALAR_FIELD : Nat :=
  21888242871839275222246405745257275088548364400416034343698204186575808495617

def FR_ORDER : Nat :=
  21888242871839275222246405745257275088614511777268538073601725287587578984328

def JUBJUB_Q : Nat := SNARK_SCALAR_FIELD

def JUBJUB_E : Nat :=
  21888242871839275222246405745257275088614511777268538073601725287587578984328

def JUBJUB_C : Nat := 8

def JUBJUB_L : Nat := JUBJUB_E / JUBJUB_C

def JUBJUB_A : Nat := 168700

def JUBJUB_D : Nat := 168696

def MONT_A : Nat := 168698

def MONT_B : Nat := 1

def DEFAULT_EXPONENT : Nat := 7

def DEFAULT_ROUNDS : Nat := 91

/-! ## Fast modular exponentiation

`pow(a, e, m)` in Python.  We use a structurally recursive
square-and-multiply definition (fuel = the exponent itself, which bounds the
number of halving steps) so that the kernel can evaluate it on 254-bit
exponents, and prove it equal to `a ^ e % m`. -/

def powmodAux : Nat → Nat → Nat → Nat → Nat
  | 0, _, _, m => 1 % m
  | fuel + 1, a, e, m =>
      if e = 0 then 1 % m
      else
        let h := powmodAux fuel (a * a % m) (e / 2) m
        if e % 2 = 1 then h * a % m else h

def powmod (a e m : Nat) : Nat := powmodAux e (a % m) e m

/-! ## Number theory (`loopring/util/sdk/ethsnarks/numtheory.py`)

`jacobi(a, n)` is recursive with a strictly decreasing second argument, and
the `while` loops of `polynomial_reduce_mod` / `polynomial_exp_mod` /
`square_root_mod_prime`'s search for `b` decrease their own measures; each is
embedded with an explicit fuel argument that the callers instantiate with a
provably sufficient bound. -/

/-- The `while a1 % 2 == 0` loop of `jacobi`: returns the odd part of `a`
together with the number of factors of two removed. -/
def split2 : Nat → Nat → Nat × Nat
  | 0, a => (a, 0)
  | fuel + 1, a =>
      if a % 2 = 0 then
        let r := split2 fuel (a / 2)
        (r.1, r.2 + 1)
      else (a, 0)

/-- `jacobi(a, n)` from `numtheory.py` (callers guarantee `n` odd, `n ≥ 3`). -/
def jacobiAux : Nat → Nat → Nat → Int
  | 0, _, _ => 0
  | fuel + 1, a, n =>
      let a := a % n
      if a = 0 then 0
      else if a = 1 then 1
      else
        let r := split2 a a
        let a1 := r.1
        let e := r.2
        let s : Int := if e % 2 = 0 ∨ n % 8 = 1 ∨ n % 8 = 7 then 1 else -1
        if a1 = 1 then s
        else
          let s := if n % 4 = 3 ∧ a1 % 4 = 3 then -s else s
          s * jacobiAux fuel (n % a1) a1

/-- `jacobi` on an integer first argument (Python `%` on a positive modulus
agrees with `Int.emod`). -/
def jacobiInt (a : Int) (n : Nat) : Int := jacobiAux n ((a % (n : Int)).toNat) n

/-- One pass of the `while` loop of `polynomial_reduce_mod`: conditionally
subtract `poly[-1] * pmod` aligned at the top, then drop the last entry. -/
def polyReduceStep (poly pmod : List Int) (p : Nat) : List Int :=
  let m := poly.length
  let c := (poly.getLast?).getD 0
  let poly' :=
    if c ≠ 0 then
      (List.range m).map fun idx =>
        let v := poly.getD idx 0
        let i := m - idx
        if 2 ≤ i ∧ i ≤ pmod.length then (v - c * pmod.getD (pmod.length - i) 0) % (p : Int)
        else v
    else poly
  poly'.dropLast

/-- `polynomial_reduce_mod(poly, pmod, p)` (fuel: each pass drops one entry). -/
def polyReduceAux : Nat → List Int → List Int → Nat → List Int
  | 0, poly, _, _ => poly
  | fuel + 1, poly, pmod, p =>
      if pmod.length ≤ poly.length then
        polyReduceAux fuel (polyReduceStep poly pmod p) pmod p
      else poly

def polyReduce (poly pmod : List Int) (p : Nat) : List Int :=
  polyReduceAux poly.length poly pmod p

/-- `polynomial_multiply_mod(m1, m2, pmod, p)`. -/
def polyMult (m1 m2 pmod : List Int) (p : Nat) : List Int :=
  let init : List Int := List.replicate (m1.length + m2.length - 1) 0
  let prod := (List.range m1.length).foldl
    (fun acc i =>
      (List.range m2.length).foldl
        (fun acc j => acc.set (i + j) ((acc.getD (i + j) 0 + m1.getD i 0 * m2.getD j 0) % (p : Int)))
        acc)
    init
  polyReduce prod pmod p

/-- The `while k > 1` loop of `polynomial_exp_mod`. -/
def polyExpModAux : Nat → Nat → List Int → List Int → List Int → Nat → List Int
  | 0, _, _, s, _, _ => s
  | fuel + 1, k, G, s, pmod, p =>
      if 1 < k then
        let k' := k / 2
        let G' := polyMult G G pmod p
        let s' := if k' % 2 = 1 then polyMult G' s pmod p else s
        polyExpModAux fuel k' G' s' pmod p
      else s

/-- `polynomial_exp_mod(base, exp, pmod, p)` (the source's debug
`assert exp < p` is guaranteed at its call site). -/
def polyExpMod (base : List Int) (exp : Nat) (pmod : List Int) (p : Nat) : List Int :=
  if exp = 0 then [1]
  else
    let s := if exp % 2 = 1 then base else [1]
    polyExpModAux exp exp base s pmod p

/-- Result of `square_root_mod_prime`: a value, the `SquareRootError` raised
for non-residues, or any other abnormal end (`SDKError` / failed `assert`). -/
inductive SqrtRes where
  | ok (r : Nat)
  | nonResidue
  | err
deriving DecidableEq

/-- The `for b in range(2, p)` search in `square_root_mod_prime`. -/
def findBAux : Nat → Nat → Nat → Nat → Option Nat
  | 0, _, _, _ => none
  | fuel + 1, b, a, p =>
      if b < p then
        if jacobiInt ((b : Int) * b - 4 * a) p = -1 then some b
        else findBAux fuel (b + 1) a p
      else none

/-- `square_root_mod_prime(a, p)` from `numtheory.py`. -/
def squareRootModPrime (a p : Nat) : SqrtRes :=
  if a = 0 then .ok 0
  else if p = 2 then .ok a
  else if jacobiInt a p = -1 then .nonResidue
  else if p % 4 = 3 then .ok (powmod a ((p + 1) / 4) p)
  else if p % 8 = 5 then
    let d := powmod a ((p - 1) / 4) p
    if d = 1 then .ok (powmod a ((p + 3) / 8) p)
    else if d = p - 1 then .ok (2 * a * powmod (4 * a) ((p - 5) / 8) p % p)
    else .err
  else
    match findBAux p 2 a p with
    | some b =>
        let f : List Int := [(a : Int), -(b : Int), 1]
        let ff := polyExpMod [0, 1] ((p + 1) / 2) f p
        if ff.getD 1 0 = 0 then .ok (ff.getD 0 0).toNat else .err
    | none => .err

/-! ## Field elements (`field.py`, class `FQ`)

The signing subsystem always instantiates `FQ` at the fixed prime modulus
`SNARK_SCALAR_FIELD = JUBJUB_Q`; we embed those field elements as
`ZMod JUBJUB_Q` (canonical representatives `ZMod.val`, matching `FQ.n`).
`inv`/`div` use Fermat's little theorem exactly as the source does, via
`powmod` so that proofs and kernel evaluation both work. -/

abbrev Fq := ZMod JUBJUB_Q

/-- `FQ.inv`: `pow(self.n, self.m - 2, self.m)`. -/
def FQinv (x : Fq) : Fq := (powmod x.val (JUBJUB_Q - 2) JUBJUB_Q : Nat)

/-- `FQ.__div__`: multiply by the Fermat inverse. -/
def FQdiv (x y : Fq) : Fq := x * FQinv y

/-- `FQ.sqrt`: `FQ(square_root_mod_prime(self.n, self.m), self.m)`, with any
raised error propagated as `none`; only a `SquareRootError` distinct from
other failures matters to callers, which is kept at the `SqrtRes` level. -/
def FQsqrt (x : Fq) : Option Fq :=
  match squareRootModPrime x.val JUBJUB_Q with
  | .ok r => some (r : Fq)
  | _ => none

/-- `jubjub.is_negative(value)`: `value.n > (-value).n`. -/
def isNegativeFq (x : Fq) : Bool := (-x).val < x.val

/-- Little-endian `int.to_bytes(n, length, "little")`. -/
def toBytesLE : Nat → Nat → List Nat
  | 0, _ => []
  | k + 1, n => n % 256 :: toBytesLE k (n / 256)

/-- Little-endian `int.from_bytes(bytes, "little")`. -/
def fromBytesLE (bs : List Nat) : Nat := bs.foldr (fun b acc => b + 256 * acc) 0

/-- Big-endian `int.from_bytes(bytes, "big")`. -/
def fromBytesBE (bs : List Nat) : Nat := bs.foldl (fun acc b => 256 * acc + b) 0

/-! ## Baby Jubjub (`jubjub.py`)

The four point representations.  Arithmetic is written with `Fq` ring
operations and `FQdiv`, mirroring the source formulas term by term.  The
source's debug `assert`s on intermediate values (`z != 0` in `as_point`,
modulus checks) are not modelled; every claim below concerns inputs on which
they pass. -/

def jubjubA : Fq := (JUBJUB_A : Nat)

def jubjubD : Fq := (JUBJUB_D : Nat)

def montA : Fq := (MONT_A : Nat)

def montB : Fq := (MONT_B : Nat)

structure Point where
  x : Fq
  y : Fq
deriving DecidableEq

structure EtecPoint where
  x : Fq
  y : Fq
  t : Fq
  z : Fq
deriving DecidableEq

structure ProjPoint where
  x : Fq
  y : Fq
  z : Fq
deriving DecidableEq

structure MontPoint where
  u : Fq
  v : Fq
deriving DecidableEq

def Point.infinity : Point := ⟨0, 1⟩

/-- `Point.add`: the complete affine unified formula, with the source's
early-return branch that tests for `(0, 0)`. -/
def Point.add (self other : Point) : Point :=
  if self.x = 0 ∧ self.y = 0 then other
  else
    let u1 := self.x
    let v1 := self.y
    let u2 := other.x
    let v2 := other.y
    let u3 := FQdiv (u1 * v2 + v1 * u2) (1 + jubjubD * u1 * u2 * v1 * v2)
    let v3 := FQdiv (v1 * v2 - jubjubA * u1 * u2) (1 - jubjubD * u1 * u2 * v1 * v2)
    ⟨u3, v3⟩

def Point.neg (self : Point) : Point := ⟨-self.x, self.y⟩

/-- `CurveOps.double` as inherited by `Point`: `self.add(self)`. -/
def Point.double (self : Point) : Point := self.add self

/-- `Point.valid`: the twisted Edwards curve equation. -/
def Point.valid (self : Point) : Prop :=
  jubjubA * (self.x * self.x) + self.y * self.y =
    1 + jubjubD * (self.x * self.x) * (self.y * self.y)

instance (P : Point) : Decidable P.valid := by unfold Point.valid; infer_instance

/-- The `while scalar != 0` loop of `CurveOps.mult` (fuel ≥ scalar). -/
def Point.multAux : Nat → Nat → Point → Point → Point
  | 0, _, _, a => a
  | fuel + 1, scalar, p, a =>
      if scalar = 0 then a
      else
        let a' := if scalar % 2 = 1 then a.add p else a
        Point.multAux fuel (scalar / 2) p.double a'

/-- `CurveOps.mult` (binary double-and-add, LSB first) on affine points, for
an integer scalar. -/
def Point.mult (self : Point) (scalar : Nat) : Point :=
  Point.multAux scalar scalar self Point.infinity

def Point.generator : Point :=
  ⟨(16540640123574156134436876038791482806971768689494387082833631921987005038935 : Nat),
   (20819045374670962167435360035096875258406992893633759881276124905556507972311 : Nat)⟩

/-- `CurveOps.all_loworder_points`. -/
def allLoworderPoints : List Point :=
  [⟨(0 : Nat), (1 : Nat)⟩,
   ⟨(0 : Nat),
    (21888242871839275222246405745257275088548364400416034343698204186575808495616 : Nat)⟩,
   ⟨(2957874849018779266517920829765869116077630550401372566248359756137677864698 : Nat),
    (0 : Nat)⟩,
   ⟨(4342719913949491028786768530115087822524712248835451589697801404893164183326 : Nat),
    (4826523245007015323400664741523384119579596407052839571721035538011798951543 : Nat)⟩,
   ⟨(4342719913949491028786768530115087822524712248835451589697801404893164183326 : Nat),
    (17061719626832259898845741003733890968968767993363194771977168648564009544074 : Nat)⟩,
   ⟨(17545522957889784193459637215142187266023652151580582754000402781682644312291 : Nat),
    (4826523245007015323400664741523384119579596407052839571721035538011798951543 : Nat)⟩,
   ⟨(17545522957889784193459637215142187266023652151580582754000402781682644312291 : Nat),
    (17061719626832259898845741003733890968968767993363194771977168648564009544074 : Nat)⟩,
   ⟨(18930368022820495955728484915491405972470733850014661777449844430438130630919 : Nat),
    (0 : Nat)⟩]

/-- `Point.compress`: `int.to_bytes(y | (is_negative(x) << 255), 32, "little")`. -/
def Point.compress (self : Point) : List Nat :=
  toBytesLE 32 (self.y.val ||| ((if isNegativeFq self.x then 1 else 0) <<< 255))

/-- `Point.from_y`: recover `x` from the curve equation; the `sign` argument
is the decompressed sign bit (Python's `None` default behaves as `0`). -/
def Point.fromY (y : Fq) (sign : Nat) : Option Point :=
  let ysq := y * y
  let lhs := ysq - 1
  let rhs := jubjubD * ysq - jubjubA
  let xsq := FQdiv lhs rhs
  match FQsqrt xsq with
  | some x =>
      let x :=
        if sign ≠ 0 then
          if xor (isNegativeFq x) (sign ≠ 0) then -x else x
        else
          if isNegativeFq x then -x else x
      some ⟨x, y⟩
  | none => none

/-- `Point.decompress`. -/
def Point.decompress (bs : List Nat) : Option Point :=
  if bs.length ≠ 32 then none
  else
    let n := fromBytesLE bs
    let sign := n >>> 255
    let y := n &&& ((1 <<< 255) - 1)
    Point.fromY (y : Fq) sign

def EtecPoint.infinity : EtecPoint := ⟨0, 1, 0, 1⟩

/-- `EtecPoint.add` (extended twisted Edwards, no inversions). -/
def EtecPoint.add (self other : EtecPoint) : EtecPoint :=
  if self = EtecPoint.infinity then other
  else
    let x1x2 := self.x * other.x
    let y1y2 := self.y * other.y
    let dt1t2 := jubjubD * self.t * other.t
    let z1z2 := self.z * other.z
    let e := (self.x + self.y) * (other.x + other.y) - x1x2 - y1y2
    let f := z1z2 - dt1t2
    let g := z1z2 + dt1t2
    let h := y1y2 - jubjubA * x1x2
    ⟨e * f, g * h, e * h, f * g⟩

/-- `EtecPoint.double` (dedicated doubling formula). -/
def EtecPoint.double (self : EtecPoint) : EtecPoint :=
  if self = EtecPoint.infinity then EtecPoint.infinity
  else
    let a := self.x * self.x
    let b := self.y * self.y
    let t0 := self.z * self.z
    let c := t0 * 2
    let d := jubjubA * a
    let t1 := self.x + self.y
    let t2 := t1 * t1
    let t3 := t2 - a
    let e := t3 - b
    let g := d + b
    let f := g - c
    let h := d - b
    ⟨e * f, g * h, e * h, f * g⟩

def EtecPoint.neg (self : EtecPoint) : EtecPoint := ⟨-self.x, self.y, -self.t, self.z⟩

def EtecPoint.asPoint (self : EtecPoint) : Point :=
  let invZ := FQinv self.z
  ⟨self.x * invZ, self.y * invZ⟩

def EtecPoint.asProj (self : EtecPoint) : ProjPoint := ⟨self.x, self.y, self.z⟩

def Point.asEtec (self : Point) : EtecPoint := ⟨self.x, self.y, self.x * self.y, 1⟩

def Point.asProj (self : Point) : ProjPoint := ⟨self.x, self.y, 1⟩

def ProjPoint.infinity : ProjPoint := ⟨0, 1, 1⟩

def ProjPoint.asPoint (self : ProjPoint) : Point :=
  let invZ := FQinv self.z
  ⟨self.x * invZ, self.y * invZ⟩

def ProjPoint.asEtec (self : ProjPoint) : EtecPoint :=
  ⟨self.x, self.y, self.x * self.y, self.z⟩

/-- `MontPoint.from_edwards`, after `as_point()` normalisation. -/
def MontPoint.fromEdwards (e : Point) : MontPoint :=
  if e.y = 1 then ⟨0, 1⟩
  else if e.x = 0 then ⟨0, 0⟩
  else
    let u := FQdiv (1 + e.y) (1 - e.y)
    let v := FQdiv u e.x
    ⟨u, v⟩

def Point.asMont (self : Point) : MontPoint := MontPoint.fromEdwards self

/-- `MontPoint.as_point`: `x = u/v`, `y = (u-1)/(u+1)`. -/
def MontPoint.asPoint (self : MontPoint) : Point :=
  ⟨FQdiv self.u self.v, FQdiv (self.u - 1) (self.u + 1)⟩

/-- `EtecPoint.mult` (the same inherited `CurveOps.mult` loop). -/
def EtecPoint.multAux : Nat → Nat → EtecPoint → EtecPoint → EtecPoint
  | 0, _, _, a => a
  | fuel + 1, scalar, p, a =>
      if scalar = 0 then a
      else
        let a' := if scalar % 2 = 1 then a.add p else a
        EtecPoint.multAux fuel (scalar / 2) p.double a'

def EtecPoint.mult (self : EtecPoint) (scalar : Nat) : EtecPoint :=
  EtecPoint.multAux scalar scalar self EtecPoint.infinity


/-! ## SHA-2 (`hashlib.sha512` / `hashlib.sha256`)

Functional transcription of FIPS 180-4, over byte lists, with 64/32-bit
words as `Nat` truncated explicitly; pinned to test vectors below. -/


def w64 (n : Nat) : Nat := n % 18446744073709551616

/-- 32-bit truncation. -/
def w32 (n : Nat) : Nat := n % 4294967296

def rotr64 (x n : Nat) : Nat := w64 ((x >>> n) ||| (x <<< (64 - n)))

def rotr32 (x n : Nat) : Nat := w32 ((x >>> n) ||| (x <<< (32 - n)))

def K512 : List Nat := [
   4794697086780616226, 8158064640168781261, 13096744586834688815, 16840607885511220156,
   4131703408338449720, 6480981068601479193, 10538285296894168987, 12329834152419229976,
   15566598209576043074, 1334009975649890238, 2608012711638119052, 6128411473006802146,
   8268148722764581231, 9286055187155687089, 11230858885718282805, 13951009754708518548,
   16472876342353939154, 17275323862435702243, 1135362057144423861, 2597628984639134821,
   3308224258029322869, 5365058923640841347, 6679025012923562964, 8573033837759648693,
   10970295158949994411, 12119686244451234320, 12683024718118986047, 13788192230050041572,
   14330467153632333762, 15395433587784984357, 489312712824947311, 1452737877330783856,
   2861767655752347644, 3322285676063803686, 5560940570517711597, 5996557281743188959,
   7280758554555802590, 8532644243296465576, 9350256976987008742, 10552545826968843579,
   11727347734174303076, 12113106623233404929, 14000437183269869457, 14369950271660146224,
   15101387698204529176, 15463397548674623760, 17586052441742319658, 1182934255886127544,
   1847814050463011016, 2177327727835720531, 2830643537854262169, 3796741975233480872,
   4115178125766777443, 5681478168544905931, 6601373596472566643, 7507060721942968483,
   8399075790359081724, 8693463985226723168, 9568029438360202098, 10144078919501101548,
   10430055236837252648, 11840083180663258601, 13761210420658862357, 14299343276471374635,
   14566680578165727644, 15097957966210449927, 16922976911328602910, 17689382322260857208,
   500013540394364858, 748580250866718886, 1242879168328830382, 1977374033974150939,
   2944078676154940804, 3659926193048069267, 4368137639120453308, 4836135668995329356,
   5532061633213252278, 6448918945643986474, 6902733635092675308, 7801388544844847127]

def H512init : List Nat := [
   7640891576956012808, 13503953896175478587, 4354685564936845355, 11912009170470909681,
   5840696475078001361, 11170449401992604703, 2270897969802886507, 6620516959819538809]

def K256 : List Nat := [
   1116352408, 1899447441, 3049323471, 3921009573,
   961987163, 1508970993, 2453635748, 2870763221,
   3624381080, 310598401, 607225278, 1426881987,
   1925078388, 2162078206, 2614888103, 3248222580,
   3835390401, 4022224774, 264347078, 604807628,
   770255983, 1249150122, 1555081692, 1996064986,
   2554220882, 2821834349, 2952996808, 3210313671,
   3336571891, 3584528711, 113926993, 338241895,
   666307205, 773529912, 1294757372, 1396182291,
   1695183700, 1986661051, 2177026350, 2456956037,
   2730485921, 2820302411, 3259730800, 3345764771,
   3516065817, 3600352804, 4094571909, 275423344,
   430227734, 506948616, 659060556, 883997877,
   958139571, 1322822218, 1537002063, 1747873779,
   1955562222, 2024104815, 2227730452, 2361852424,
   2428436474, 2756734187, 3204031479, 3329325298]

def H256init : List Nat := [
   1779033703, 3144134277, 1013904242, 2773480762,
   1359893119, 2600822924, 528734635, 1541459225]

def bytesToWordBE (bs : List Nat) : Nat := bs.foldl (fun a b => a * 256 + b) 0

def toBytesBEfix (k n : Nat) : List Nat := (toBytesLE k n).reverse

def chunksAux {α : Type} : Nat → Nat → List α → List (List α)
  | 0, _, _ => []
  | _, _, [] => []
  | fuel + 1, k, l => l.take k :: chunksAux fuel k (l.drop k)

def chunks {α : Type} (k : Nat) (l : List α) : List (List α) := chunksAux l.length k l

def sha512pad (msg : List Nat) : List Nat :=
  let padlen := (111 + 128 - (msg.length + 1) % 128) % 128
  msg ++ 128 :: List.replicate padlen 0 ++ toBytesBEfix 16 (8 * msg.length)

def sha256pad (msg : List Nat) : List Nat :=
  let padlen := (55 + 64 - (msg.length + 1) % 64) % 64
  msg ++ 128 :: List.replicate padlen 0 ++ toBytesBEfix 8 (8 * msg.length)

def sha512schedule (block : List Nat) : List Nat :=
  let w0 := (chunks 8 block).map bytesToWordBE
  (List.range 64).foldl
    (fun w _ =>
      let t := w.length
      let s0 :=
        let x := w.getD (t - 15) 0
        (rotr64 x 1) ^^^ (rotr64 x 8) ^^^ (x >>> 7)
      let s1 :=
        let x := w.getD (t - 2) 0
        (rotr64 x 19) ^^^ (rotr64 x 61) ^^^ (x >>> 6)
      w ++ [w64 (w.getD (t - 16) 0 + s0 + w.getD (t - 7) 0 + s1)])
    w0

def sha256schedule (block : List Nat) : List Nat :=
  let w0 := (chunks 4 block).map bytesToWordBE
  (List.range 48).foldl
    (fun w _ =>
      let t := w.length
      let s0 :=
        let x := w.getD (t - 15) 0
        (rotr32 x 7) ^^^ (rotr32 x 18) ^^^ (x >>> 3)
      let s1 :=
        let x := w.getD (t - 2) 0
        (rotr32 x 17) ^^^ (rotr32 x 19) ^^^ (x >>> 10)
      w ++ [w32 (w.getD (t - 16) 0 + s0 + w.getD (t - 7) 0 + s1)])
    w0

def sha512compress (hs : List Nat) (block : List Nat) : List Nat :=
  let w := sha512schedule block
  let st := (List.range 80).foldl
    (fun st t =>
      match st with
      | [a, b, c, d, e, f, g, hh] =>
          let S1 := (rotr64 e 14) ^^^ (rotr64 e 18) ^^^ (rotr64 e 41)
          let ch := (e &&& f) ^^^ ((18446744073709551615 - e) &&& g)
          let temp1 := w64 (hh + S1 + ch + K512.getD t 0 + w.getD t 0)
          let S0 := (rotr64 a 28) ^^^ (rotr64 a 34) ^^^ (rotr64 a 39)
          let maj := (a &&& b) ^^^ (a &&& c) ^^^ (b &&& c)
          let temp2 := w64 (S0 + maj)
          [w64 (temp1 + temp2), a, b, c, w64 (d + temp1), e, f, g]
      | _ => st)
    hs
  (hs.zip st).map fun p => w64 (p.1 + p.2)

def sha256compress (hs : List Nat) (block : List Nat) : List Nat :=
  let w := sha256schedule block
  let st := (List.range 64).foldl
    (fun st t =>
      match st with
      | [a, b, c, d, e, f, g, hh] =>
          let S1 := (rotr32 e 6) ^^^ (rotr32 e 11) ^^^ (rotr32 e 25)
          let ch := (e &&& f) ^^^ ((4294967295 - e) &&& g)
          let temp1 := w32 (hh + S1 + ch + K256.getD t 0 + w.getD t 0)
          let S0 := (rotr32 a 2) ^^^ (rotr32 a 13) ^^^ (rotr32 a 22)
          let maj := (a &&& b) ^^^ (a &&& c) ^^^ (b &&& c)
          let temp2 := w32 (S0 + maj)
          [w32 (temp1 + temp2), a, b, c, w32 (d + temp1), e, f, g]
      | _ => st)
    hs
  (hs.zip st).map fun p => w32 (p.1 + p.2)

/-- SHA-512 digest (64 bytes) of a byte list. -/
def sha512 (msg : List Nat) : List Nat :=
  let blocks := chunks 128 (sha512pad msg)
  let hfin := blocks.foldl sha512compress H512init
  hfin.flatMap (toBytesBEfix 8)

/-- SHA-256 digest (32 bytes) of a byte list. -/
def sha256 (msg : List Nat) : List Nat :=
  let blocks := chunks 64 (sha256pad msg)
  let hfin := blocks.foldl sha256compress H256init
  hfin.flatMap (toBytesBEfix 4)


/-! ## EdDSA schemes (`loopring/util/sdk/ethsnarks/eddsa.py`) -/


/-- Message arguments of the `_SignatureScheme` class methods (`to_bytes`,
`to_bits`, `as_scalar`).  The tuple/list recursion of the source is not
modelled: none of the signing paths below passes nested sequences. -/
inductive MsgArg where
  | fq (x : Fq)
  | int (n : Nat)
  | point (P : Point)
  | bytes (bs : List Nat)

/-- `_SignatureScheme.to_bytes` on a single argument: `FQ` and the point
coordinates as 32 little-endian bytes, `int` via `to_bytes(32, "little")`
(whose `OverflowError` on values `≥ 2^256` is `none`). -/
def msgToBytes : MsgArg → Option (List Nat)
  | .point P => some (toBytesLE 32 P.x.val ++ toBytesLE 32 P.y.val)
  | .fq x => some (toBytesLE 32 x.val)
  | .int n => if n < 2 ^ 256 then some (toBytesLE 32 n) else none
  | .bytes bs => some bs

/-- `to_bytes(*args)`: the concatenation, `none` once any argument fails. -/
def toBytesArgs : List MsgArg → Option (List Nat)
  | [] => some []
  | a :: rest =>
      Option.bind (msgToBytes a) fun bs =>
        Option.map (fun rs => bs ++ rs) (toBytesArgs rest)

/-- `FQ.bits`: the 254 bits of the value, least significant first. -/
def fqBits (x : Fq) : List Bool := (List.range 254).map fun i => x.val.testBit i

/-- `_SignatureScheme.to_bits` on a single argument: a `Point` contributes
only `x.bits()`, a plain `int` raises `TypeError` (`none`). -/
def msgToBits : MsgArg → Option (List Bool)
  | .point P => some (fqBits P.x)
  | .fq x => some (fqBits x)
  | .bytes bs => some (bs.flatMap fun b => (List.range 8).map fun i => b.testBit (7 - i))
  | .int _ => none

def toBitsArgs : List MsgArg → Option (List Bool)
  | [] => some []
  | a :: rest =>
      Option.bind (msgToBits a) fun bs =>
        Option.map (fun rs => bs ++ rs) (toBitsArgs rest)

/-- `as_scalar` on a single argument (`bytes` raises `TypeError`). -/
def asScalarArg : MsgArg → Option (List Nat)
  | .fq x => some [x.val]
  | .int n => some [n]
  | .point P => some [P.x.val, P.y.val]
  | .bytes _ => none

def asScalar : List MsgArg → Option (List Nat)
  | [] => some []
  | a :: rest =>
      Option.bind (asScalarArg a) fun xs =>
        Option.map (fun rs => xs ++ rs) (asScalar rest)

/-- `Signature`: the constructor stores `s` as `FQ(s)`, i.e. reduced into the
field `ZMod JUBJUB_Q`. -/
structure Signature where
  R : Point
  s : Fq

structure SignedMessage where
  A : Point
  sig : Signature
  msg : Nat

/-- `_SignatureScheme.hash_secret`: little-endian sha512 of the concatenated
`to_bytes` encodings, reduced mod `JUBJUB_L`. -/
def hashSecret (k : Fq) (args : List MsgArg) : Option Nat :=
  (toBytesArgs (.fq k :: args)).map fun data =>
    fromBytesLE (sha512 data) % JUBJUB_L

/-- `_SignatureScheme.sign` for an integer message `M` (the schemes used here
have the identity `prehash_message`), parametrized by the scheme's
`hash_public`.  `S = (r + key.n * t) % JUBJUB_E`, stored as `FQ(S)`. -/
def schemeSign (hashPublic : Point → Point → Nat → Option Nat) (M : Nat) (key : Fq) :
    Option SignedMessage :=
  if JUBJUB_L ≤ key.val ∨ key.val = 0 then none
  else
    let A := Point.generator.mult key.val
    Option.bind (hashSecret key [.int M]) fun r =>
      let R := Point.generator.mult r
      Option.map
        (fun t =>
          { A := A,
            sig := { R := R, s := (((r + key.val * t) % JUBJUB_E : Nat) : Fq) },
            msg := M })
        (hashPublic R A M)

/-- `mimc(x, k)` with the round constants `cs` (derived in the source from a
seed via keccak, which is not modelled: `cs` is the resulting list). -/
def mimc (cs : List Nat) (x k : Nat) : Nat :=
  let xR := cs.foldl
    (fun x c => powmod ((x + k + c) % SNARK_SCALAR_FIELD) DEFAULT_EXPONENT SNARK_SCALAR_FIELD) x
  (xR + k) % SNARK_SCALAR_FIELD

/-- `mimc_hash(x, k)`: the loop updates the chaining key `k`, but the
function then returns the modulus `p` itself. -/
def mimcHash (cs : List Nat) (xs : List Nat) (k : Nat) : Nat :=
  let _k := xs.foldl (fun k x => (k + x + mimc cs x k) % SNARK_SCALAR_FIELD) k
  SNARK_SCALAR_FIELD

/-- The chained construction the spec describes (returning the final
chaining key). -/
def mimcHashChained (cs : List Nat) (xs : List Nat) (k : Nat) : Nat :=
  xs.foldl (fun k x => (k + x + mimc cs x k) % SNARK_SCALAR_FIELD) k

/-- `MiMCEdDSA.hash_public`. -/
def mimcHashPublic (cs : List Nat) (R A : Point) (M : Nat) : Option Nat :=
  Option.map (fun xs => mimcHash cs xs 0) (asScalar [.point R, .point A, .int M])

/-- Poseidon parameters; the round constants and matrix are derived in the
source from a seed via blake2b, which is not modelled: theorems quantify over
the parameter values. -/
structure PoseidonParams where
  p : Nat
  t : Nat
  nRoundsF : Nat
  nRoundsP : Nat
  e : Nat
  constC : List Nat
  constM : List (List Nat)

/-- `poseidon_sbox`. -/
def poseidonSbox (st : List Nat) (i halfF nRoundsP e p : Nat) : List Nat :=
  if i < halfF ∨ halfF + nRoundsP ≤ i then st.map fun x => powmod x e p
  else
    match st with
    | [] => []
    | x :: rest => powmod x e p :: rest

/-- `poseidon_mix`. -/
def poseidonMix (st : List Nat) (M : List (List Nat)) (p : Nat) : List Nat :=
  M.map fun row => ((row.zip st).foldl (fun acc q => acc + q.1 * q.2) 0) % p

/-- `poseidon(inputs, params)` (the length asserts are `none`). -/
def poseidon (inputs : List Nat) (par : PoseidonParams) : Option Nat :=
  if inputs.length = 0 ∨ par.t ≤ inputs.length then none
  else
    let st0 := inputs ++ List.replicate (par.t - inputs.length) 0
    let halfF := par.nRoundsF / 2
    let stN := par.constC.enum.foldl
      (fun st ic =>
        poseidonMix (poseidonSbox (st.map fun v => v + ic.2) ic.1 halfF par.nRoundsP par.e par.p)
          par.constM par.p)
      st0
    some (stN.getD 0 0)

/-- `PoseidonEdDSA.hash_public` (its `poseidon_params(SNARK_SCALAR_FIELD, 6,
6, 52, b"poseidon", 5, security=128)` is the argument `par`). -/
def poseidonHashPublic (par : PoseidonParams) (R A : Point) (M : Nat) : Option Nat :=
  Option.bind (asScalar [.point R, .point A, .int M]) fun msg => poseidon msg par

/-- `"EdDSA_Verify.RAM"` (ASCII). -/
def P13N_EDDSA_VERIFY_RAM : List Nat :=
  [69, 100, 68, 83, 65, 95, 86, 101, 114, 105, 102, 121, 46, 82, 65, 77]

/-- `PureEdDSA.hash_public`: `pedersen_hash_bits(p13n, to_bits(R, A, M)).x.n`,
with the Pedersen point-hash core abstracted as `ph` (theorems below hold for
every `ph`, so its windowed base-point construction is not needed). -/
def pureEdDSAHashPublic (ph : List Nat → List Bool → Point) (R A : Point) (M : Nat) :
    Option Nat :=
  Option.map (fun bits => (ph P13N_EDDSA_VERIFY_RAM bits).x.val)
    (toBitsArgs [.point R, .point A, .int M])

/-! ## URL request signing (`loopring/util/sdk/sig/eddsa.py`) -/

def hexUpper (d : Nat) : Nat := if d < 10 then 48 + d else 55 + d

/-- `urllib.parse.quote(·, safe="")` on a byte: letters, digits and
`_ . - ~` pass through, everything else becomes `%XX` (uppercase hex). -/
def pyquoteByte (b : Nat) : List Nat :=
  if (65 ≤ b ∧ b ≤ 90) ∨ (97 ≤ b ∧ b ≤ 122) ∨ (48 ≤ b ∧ b ≤ 57) ∨
      b = 95 ∨ b = 46 ∨ b = 45 ∨ b = 126 then [b]
  else [37, hexUpper (b / 16), hexUpper (b % 16)]

def pyquote (bs : List Nat) : List Nat := bs.flatMap pyquoteByte

mutual

/-- JSON values (strings as ASCII byte lists; arrays and objects through the
mutual list types, so that `dumps` is plain structural recursion). -/
inductive Json where
  | str (s : List Nat)
  | num (n : Int)
  | jbool (b : Bool)
  | null
  | arr (xs : JsonList)
  | obj (kvs : JsonObj)

inductive JsonList where
  | nil
  | cons (j : Json) (rest : JsonList)

inductive JsonObj where
  | nil
  | cons (k : List Nat) (v : Json) (rest : JsonObj)

end

def hexLower (d : Nat) : Nat := if d < 10 then 48 + d else 87 + d

/-- `json.dumps` string escaping (ASCII-restricted modelling). -/
def jsonEscape (b : Nat) : List Nat :=
  if b = 34 then [92, 34]
  else if b = 92 then [92, 92]
  else if b = 8 then [92, 98]
  else if b = 9 then [92, 116]
  else if b = 10 then [92, 110]
  else if b = 12 then [92, 102]
  else if b = 13 then [92, 114]
  else if b < 32 then [92, 117, 48, 48, hexLower (b / 16), hexLower (b % 16)]
  else [b]

def jsonStr (s : List Nat) : List Nat := 34 :: s.flatMap jsonEscape ++ [34]

def natReprAux : Nat → Nat → List Nat
  | 0, _ => []
  | fuel + 1, n => if n < 10 then [48 + n] else natReprAux fuel (n / 10) ++ [48 + n % 10]

def natRepr (n : Nat) : List Nat := natReprAux (n + 1) n

def intRepr (n : Int) : List Nat :=
  if n < 0 then 45 :: natRepr (-n).toNat else natRepr n.toNat

mutual

/-- `json.dumps(·, separators=(",", ":"))`. -/
def jsonDumps : Json → List Nat
  | .str s => jsonStr s
  | .num n => intRepr n
  | .jbool true => [116, 114, 117, 101]
  | .jbool false => [102, 97, 108, 115, 101]
  | .null => [110, 117, 108, 108]
  | .arr xs => 91 :: jsonDumpsList xs ++ [93]
  | .obj kvs => 123 :: jsonDumpsObj kvs ++ [125]

def jsonDumpsList : JsonList → List Nat
  | .nil => []
  | .cons j .nil => jsonDumps j
  | .cons j rest => jsonDumps j ++ 44 :: jsonDumpsList rest

def jsonDumpsObj : JsonObj → List Nat
  | .nil => []
  | .cons k v .nil => jsonStr k ++ 58 :: jsonDumps v
  | .cons k v rest => jsonStr k ++ 58 :: jsonDumps v ++ 44 :: jsonDumpsObj rest

end

/-- `loopring.util.request.Request` (strings as byte lists, `params` as an
association list, `payload` as a JSON value). -/
structure Request where
  method : List Nat
  host : List Nat
  path : List Nat
  params : List (List Nat × List Nat)
  payload : Json

def strGET : List Nat := [71, 69, 84]

def strDELETE : List Nat := [68, 69, 76, 69, 84, 69]

def strPOST : List Nat := [80, 79, 83, 84]

def strPUT : List Nat := [80, 85, 84]

/-- `"http://"` / `"https://"`. -/
def strHttp : List Nat := [104, 116, 116, 112, 58, 47, 47]

def strHttps : List Nat := [104, 116, 116, 112, 115, 58, 47, 47]

/-- `UrlEDDSASign.serialise`: `&`-join of method, percent-encoded URL and
percent-encoded data (query string for GET/DELETE, compact JSON body for
POST/PUT); the `assert` on the scheme and the `raise` on other methods are
`none`. -/
def serialise (selfHost : List Nat) (req : Request) : Option (List Nat) :=
  let host := if selfHost.isEmpty then req.host else selfHost
  if ¬(strHttp.isPrefixOf host ∨ strHttps.isPrefixOf host) then none
  else
    let url := pyquote (host ++ req.path)
    let dataOpt : Option (List Nat) :=
      if req.method = strGET ∨ req.method = strDELETE then
        some (pyquote (List.intercalate [38]
          (req.params.map fun kv => kv.1 ++ 61 :: pyquote kv.2)))
      else if req.method = strPOST ∨ req.method = strPUT then
        some (pyquote (jsonDumps req.payload))
      else none
    Option.map (fun data => List.intercalate [38] [req.method, url, data]) dataOpt

/-- The canonical string as the spec describes it: the percent-encoded
`METHOD&URL&DATA`, `DATA` being the encoded query string (GET/DELETE) or the
compact JSON body (POST/PUT). -/
def serialiseSpec (selfHost : List Nat) (req : Request) : Option (List Nat) :=
  let host := if selfHost.isEmpty then req.host else selfHost
  if ¬(strHttp.isPrefixOf host ∨ strHttps.isPrefixOf host) then none
  else
    let rawOpt : Option (List Nat) :=
      if req.method = strGET ∨ req.method = strDELETE then
        some (List.intercalate [38] (req.params.map fun kv => kv.1 ++ 61 :: pyquote kv.2))
      else if req.method = strPOST ∨ req.method = strPUT then
        some (jsonDumps req.payload)
      else none
    Option.map
      (fun raw => req.method ++ 38 :: pyquote (host ++ req.path) ++ 38 :: pyquote raw)
      rawOpt

/-- `UrlEDDSASign.hash`: sha256 of the canonical string, as a big-endian
integer, mod the field modulus. -/
def urlHash (selfHost : List Nat) (req : Request) : Option Nat :=
  Option.map (fun s => fromBytesBE (sha256 s) % SNARK_SCALAR_FIELD) (serialise selfHost req)

/-- `UrlEDDSASign.sign` (via `EDDSASign.sign`): sign the URL hash with
`PoseidonEdDSA`; the final hex serialisation of `(R.x, R.y, s)` is not
modelled. -/
def urlSign (par : PoseidonParams) (selfHost : List Nat) (req : Request) (key : Fq) :
    Option SignedMessage :=
  Option.bind (urlHash selfHost req) fun M => schemeSign (poseidonHashPublic par) M key

/-- The pipeline the claim asserts: the same canonicalization and hash, but
signed with the Pedersen-hash (`PureEdDSA`) variant. -/
def urlSignPedersen (ph : List Nat → List Bool → Point) (selfHost : List Nat) (req : Request)
    (key : Fq) : Option SignedMessage :=
  Option.bind (urlHash selfHost req) fun M => schemeSign (pureEdDSAHashPublic ph) M key

-- ===== theorems =====


/-- The concrete request of the C4 counterexample: `GET https://a.io/x?a=1`. -/
def req0 : Request :=
  { method := strGET,
    host := [],
    path := [47, 120],
    params := [([97], [49])],
    payload := Json.null }

/-- `"https://a.io"`. -/
def host0 : List Nat := [104, 116, 116, 112, 115, 58, 47, 47, 97, 46, 105, 111]


/-! ## Proof-side auxiliary definitions

Mathematical scaffolding used only in proofs (not translations of source
code): the order-two low-order point named for convenience, the loop
invariant and interpretation map for `polynomial_exp_mod`'s coefficient
lists, and the quadratic polynomial `x² - b·x + c` that Cipolla's algorithm
implicitly works modulo. -/

/-- The order-two low-order point `(0, -1)` (the second entry of
`allLoworderPoints`). -/
def orderTwoPt : Point :=
  ⟨(0 : Nat),
   (21888242871839275222246405745257275088548364400416034343698204186575808495616 : Nat)⟩

/-- Invariant carried through `polynomial_exp_mod`'s loop: the coefficient
lists have length two with entries reduced into `[0, p)`. -/
def GoodList (p : Nat) (l : List Int) : Prop :=
  l.length = 2 ∧ ∀ v ∈ l, 0 ≤ v ∧ v < (p : Int)

/-- Interpretation of a (length-2) coefficient list in a ring extension `K`
of `ZMod p` at the element `θ`: the list `[u, v]` denotes `u + v·θ`. -/
def interp {p : Nat} {K : Type} [CommRing K] (φ : ZMod p →+* K) (θ : K) (l : List Int) : K :=
  φ ((l.getD 0 0 : Int) : ZMod p) + φ ((l.getD 1 0 : Int) : ZMod p) * θ

open Polynomial in
/-- The quadratic `x² - b·x + c` that Cipolla's loop computes modulo (the
source's `f = [a, -b, 1]` with `c = a`). -/
noncomputable def cPoly {p : Nat} (b c : ZMod p) : (ZMod p)[X] := X ^ 2 - C b * X + C c

/-! # Part 2: theorems -/

theorem powmodAux_correct (fuel : Nat) : ∀ a e m : Nat, e ≤ fuel → 0 < m →
    powmodAux fuel a e m = a ^ e % m := by
  induction fuel with
  | zero =>
      intro a e m he hm
      interval_cases e
      simp [powmodAux]
  | succ n ih =>
      intro a e m he hm
      rcases Nat.eq_zero_or_pos e with rfl | hpos
      · simp [powmodAux]
      have hhalf : e / 2 ≤ n := by omega
      have hrec := ih (a * a % m) (e / 2) m hhalf hm
      have hmulpow : (a * a % m) ^ (e / 2) % m = a ^ (2 * (e / 2)) % m := by
        rw [Nat.pow_mod, Nat.mod_mod_of_dvd _ (dvd_refl m), ← Nat.pow_mod]
        rw [two_mul, pow_add, ← mul_pow]
      rcases Nat.even_or_odd e with heven | hodd
      · have he2 : e % 2 = 0 := Nat.even_iff.mp heven
        have : 2 * (e / 2) = e := by omega
        simp only [powmodAux, if_neg (Nat.pos_iff_ne_zero.mp hpos), he2]
        rw [hrec, hmulpow, this]
        simp
      · have he2 : e % 2 = 1 := Nat.odd_iff.mp hodd
        have hsplit : 2 * (e / 2) + 1 = e := by omega
        simp only [powmodAux, if_neg (Nat.pos_iff_ne_zero.mp hpos), he2, if_pos rfl]
        rw [hrec, hmulpow]
        rw [Nat.mod_mul_mod, ← pow_succ, hsplit]
        simp

theorem powmod_correct (a e m : Nat) (hm : 0 < m) : powmod a e m = a ^ e % m := by
  rw [powmod, powmodAux_correct e (a % m) e m (le_refl e) hm, Nat.pow_mod, Nat.mod_mod_of_dvd,
    ← Nat.pow_mod]
  exact dvd_refl m

theorem powmod_lt (a e m : Nat) (hm : 0 < m) : powmod a e m < m := by
  rw [powmod_correct a e m hm]; exact Nat.mod_lt _ hm

/-! ## Primality of the field modulus

`SNARK_SCALAR_FIELD` must be prime for the Fermat-inverse arithmetic of the
embedded `FQ` type to be sound.  We verify this inside Lean with Pratt/Lucas
certificates, using `powmod` for the kernel-feasible modular exponentiations. -/

theorem zmod_natCast_pow (a e n : Nat) : ((a ^ e % n : Nat) : ZMod n) = (a : ZMod n) ^ e := by
  rw [ZMod.natCast_mod]; push_cast; ring

theorem zmod_pow_eq_one_of_powmod (a e n : Nat) (hn : 0 < n) (h : powmod a e n = 1) :
    (a : ZMod n) ^ e = 1 := by
  rw [← zmod_natCast_pow, ← powmod_correct a e n hn, h, Nat.cast_one]

theorem zmod_pow_ne_one_of_powmod (a e n : Nat) (hn : 1 < n) (h : powmod a e n ≠ 1) :
    (a : ZMod n) ^ e ≠ 1 := by
  intro hcon
  apply h
  haveI : NeZero n := ⟨by omega⟩
  rw [← zmod_natCast_pow, ← powmod_correct a e n (by omega)] at hcon
  have hlt := powmod_lt a e n (by omega)
  have := congrArg ZMod.val hcon
  rwa [ZMod.val_natCast_of_lt hlt, ZMod.val_one_eq_one_mod, Nat.mod_eq_of_lt hn] at this

theorem lucas_cert (N a : Nat) (hN : 1 < N)
    (h1 : powmod a (N - 1) N = 1)
    (hd : ∀ q, q.Prime → q ∣ N - 1 → powmod a ((N - 1) / q) N ≠ 1) : N.Prime := by
  apply lucas_primality N (a : ZMod N)
  · exact zmod_pow_eq_one_of_powmod a (N - 1) N (by omega) h1
  · intro q hq hdvd
    exact zmod_pow_ne_one_of_powmod a ((N - 1) / q) N hN (hd q hq hdvd)

theorem prime_dvd_mul_pow {q a n rest : Nat} (hq : q.Prime) (ha : a.Prime)
    (h : q ∣ a ^ n * rest) : q = a ∨ q ∣ rest := by
  rcases (Nat.Prime.dvd_mul hq).mp h with h' | h'
  · exact Or.inl ((Nat.prime_dvd_prime_iff_eq hq ha).mp (hq.dvd_of_dvd_pow h'))
  · exact Or.inr h'

theorem prime_12048837557 : Nat.Prime 12048837557 := by
  apply lucas_cert 12048837557 2 (by norm_num) (by decide)
  intro q hq hdvd
  have hfac : 12048837557 - 1 = 2 ^ 2 * (7 ^ 2 * (661 ^ 1 * 93001 ^ 1)) := by norm_num
  rw [hfac] at hdvd
  rcases prime_dvd_mul_pow hq (by norm_num) hdvd with rfl | hdvd
  · decide
  rcases prime_dvd_mul_pow hq (by norm_num) hdvd with rfl | hdvd
  · decide
  rcases prime_dvd_mul_pow hq (by norm_num) hdvd with rfl | hdvd
  · decide
  have hlast : Nat.Prime 93001 := by norm_num
  have := (Nat.prime_dvd_prime_iff_eq hq hlast).mp (by simpa using hdvd)
  subst this
  decide

theorem prime_5156902474397 : Nat.Prime 5156902474397 := by
  apply lucas_cert 5156902474397 2 (by norm_num) (by decide)
  intro q hq hdvd
  have hfac : 5156902474397 - 1 = 2 ^ 2 * (107 ^ 1 * 12048837557 ^ 1) := by norm_num
  rw [hfac] at hdvd
  rcases prime_dvd_mul_pow hq (by norm_num) hdvd with rfl | hdvd
  · decide
  rcases prime_dvd_mul_pow hq (by norm_num) hdvd with rfl | hdvd
  · decide
  have := (Nat.prime_dvd_prime_iff_eq hq prime_12048837557).mp (by simpa using hdvd)
  subst this
  decide

theorem prime_1670836401704629 : Nat.Prime 1670836401704629 := by
  apply lucas_cert 1670836401704629 2 (by norm_num) (by decide)
  intro q hq hdvd
  have hfac : 1670836401704629 - 1 = 2 ^ 2 * (3 ^ 4 * 5156902474397 ^ 1) := by norm_num
  rw [hfac] at hdvd
  rcases prime_dvd_mul_pow hq (by norm_num) hdvd with rfl | hdvd
  · decide
  rcases prime_dvd_mul_pow hq (by norm_num) hdvd with rfl | hdvd
  · decide
  have := (Nat.prime_dvd_prime_iff_eq hq prime_5156902474397).mp (by simpa using hdvd)
  subst this
  decide

theorem prime_639533339 : Nat.Prime 639533339 := by
  apply lucas_cert 639533339 2 (by norm_num) (by decide)
  intro q hq hdvd
  have hfac : 639533339 - 1 = 2 ^ 1 * (229 ^ 1 * (853 ^ 1 * 1637 ^ 1)) := by norm_num
  rw [hfac] at hdvd
  rcases prime_dvd_mul_pow hq (by norm_num) hdvd with rfl | hdvd
  · decide
  rcases prime_dvd_mul_pow hq (by norm_num) hdvd with rfl | hdvd
  · decide
  rcases prime_dvd_mul_pow hq (by norm_num) hdvd with rfl | hdvd
  · decide
  have hlast : Nat.Prime 1637 := by norm_num
  have := (Nat.prime_dvd_prime_iff_eq hq hlast).mp (by simpa using hdvd)
  subst this
  decide

theorem prime_405928799 : Nat.Prime 405928799 := by
  apply lucas_cert 405928799 22 (by norm_num) (by decide)
  intro q hq hdvd
  have hfac : 405928799 - 1 = 2 ^ 1 * (11 ^ 1 * (3691 ^ 1 * 4999 ^ 1)) := by norm_num
  rw [hfac] at hdvd
  rcases prime_dvd_mul_pow hq (by norm_num) hdvd with rfl | hdvd
  · decide
  rcases prime_dvd_mul_pow hq (by norm_num) hdvd with rfl | hdvd
  · decide
  rcases prime_dvd_mul_pow hq (by norm_num) hdvd with rfl | hdvd
  · decide
  have hlast : Nat.Prime 4999 := by norm_num
  have := (Nat.prime_dvd_prime_iff_eq hq hlast).mp (by simpa using hdvd)
  subst this
  decide

theorem prime_65865678001877903 : Nat.Prime 65865678001877903 := by
  apply lucas_cert 65865678001877903 5 (by norm_num) (by decide)
  intro q hq hdvd
  have hfac : 65865678001877903 - 1 =
      2 ^ 1 * (83 ^ 1 * (379 ^ 1 * (1637 ^ 1 * 639533339 ^ 1))) := by norm_num
  rw [hfac] at hdvd
  rcases prime_dvd_mul_pow hq (by norm_num) hdvd with rfl | hdvd
  · decide
  rcases prime_dvd_mul_pow hq (by norm_num) hdvd with rfl | hdvd
  · decide
  rcases prime_dvd_mul_pow hq (by norm_num) hdvd with rfl | hdvd
  · decide
  rcases prime_dvd_mul_pow hq (by norm_num) hdvd with rfl | hdvd
  · decide
  have := (Nat.prime_dvd_prime_iff_eq hq prime_639533339).mp (by simpa using hdvd)
  subst this
  decide

theorem prime_13818364434197438864469338081 : Nat.Prime 13818364434197438864469338081 := by
  apply lucas_cert 13818364434197438864469338081 3 (by norm_num) (by decide)
  intro q hq hdvd
  have hfac : 13818364434197438864469338081 - 1 =
      2 ^ 5 * (5 ^ 1 * (823 ^ 1 * (1593227 ^ 1 * 65865678001877903 ^ 1))) := by norm_num
  rw [hfac] at hdvd
  rcases prime_dvd_mul_pow hq (by norm_num) hdvd with rfl | hdvd
  · decide
  rcases prime_dvd_mul_pow hq (by norm_num) hdvd with rfl | hdvd
  · decide
  rcases prime_dvd_mul_pow hq (by norm_num) hdvd with rfl | hdvd
  · decide
  rcases prime_dvd_mul_pow hq (by norm_num) hdvd with rfl | hdvd
  · decide
  have := (Nat.prime_dvd_prime_iff_eq hq prime_65865678001877903).mp (by simpa using hdvd)
  subst this
  decide

theorem snark_scalar_field_prime : Nat.Prime SNARK_SCALAR_FIELD := by
  rw [SNARK_SCALAR_FIELD]
  apply lucas_cert _ 5 (by norm_num) (by decide)
  intro q hq hdvd
  have hfac :
      21888242871839275222246405745257275088548364400416034343698204186575808495617 - 1 =
      2 ^ 28 * (3 ^ 2 * (13 ^ 1 * (29 ^ 1 * (983 ^ 1 * (11003 ^ 1 * (237073 ^ 1 *
        (405928799 ^ 1 * (1670836401704629 ^ 1 *
          13818364434197438864469338081 ^ 1)))))))) := by norm_num
  rw [hfac] at hdvd
  rcases prime_dvd_mul_pow hq (by norm_num) hdvd with rfl | hdvd
  · decide
  rcases prime_dvd_mul_pow hq (by norm_num) hdvd with rfl | hdvd
  · decide
  rcases prime_dvd_mul_pow hq (by norm_num) hdvd with rfl | hdvd
  · decide
  rcases prime_dvd_mul_pow hq (by norm_num) hdvd with rfl | hdvd
  · decide
  rcases prime_dvd_mul_pow hq (by norm_num) hdvd with rfl | hdvd
  · decide
  rcases prime_dvd_mul_pow hq (by norm_num) hdvd with rfl | hdvd
  · decide
  rcases prime_dvd_mul_pow hq (by norm_num) hdvd with rfl | hdvd
  · decide
  rcases prime_dvd_mul_pow hq prime_405928799 hdvd with rfl | hdvd
  · decide
  rcases prime_dvd_mul_pow hq prime_1670836401704629 hdvd with rfl | hdvd
  · decide
  have := (Nat.prime_dvd_prime_iff_eq hq prime_13818364434197438864469338081).mp
    (by simpa using hdvd)
  subst this
  decide

theorem jubjub_q_prime : Nat.Prime JUBJUB_Q := snark_scalar_field_prime

instance : Fact (Nat.Prime JUBJUB_Q) := ⟨jubjub_q_prime⟩

instance : Fact (Nat.Prime SNARK_SCALAR_FIELD) := ⟨snark_scalar_field_prime⟩

/-! ### Field-element lemmas -/

theorem fq_natCast_val (x : Fq) : ((x.val : Nat) : Fq) = x := ZMod.natCast_zmod_val x

theorem FQinv_eq_inv (x : Fq) : FQinv x = x⁻¹ := by
  have hq : 1 < JUBJUB_Q := by unfold JUBJUB_Q SNARK_SCALAR_FIELD; norm_num
  rw [FQinv, powmod_correct _ _ _ (by omega), ZMod.natCast_mod]
  push_cast [fq_natCast_val]
  rcases eq_or_ne x 0 with rfl | hx
  · rw [zero_pow (by unfold JUBJUB_Q SNARK_SCALAR_FIELD; norm_num), inv_zero]
  · have h1 : x ^ (JUBJUB_Q - 1) = 1 := ZMod.pow_card_sub_one_eq_one hx
    have h2 : x ^ (JUBJUB_Q - 2) * x = 1 := by
      rw [← pow_succ]
      have : JUBJUB_Q - 2 + 1 = JUBJUB_Q - 1 := by omega
      rw [this, h1]
    exact eq_inv_of_mul_eq_one_left h2

theorem FQdiv_eq_div (x y : Fq) : FQdiv x y = x / y := by
  rw [FQdiv, FQinv_eq_inv, div_eq_mul_inv]

theorem FQinv_one : FQinv 1 = 1 := by rw [FQinv_eq_inv, inv_one]

theorem fq_two_ne_zero : (2 : Fq) ≠ 0 := by decide

theorem fq_a_sub_d_ne_zero : jubjubA - jubjubD ≠ 0 := by decide

/-! ### C10: the affine identity law -/

theorem valid_not_zero_zero {P : Point} (hv : P.valid) : ¬(P.x = 0 ∧ P.y = 0) := by
  rintro ⟨hx, hy⟩
  rw [Point.valid, hx, hy] at hv
  simp at hv

/-- C10: For every valid affine point `P`, `P.add(Point.infinity()) == P` and
`Point.infinity().add(P) == P`: the complete unified affine formula covers the
identity cases, even though the early-return branch of `Point.add` tests for
the off-curve pair `(0, 0)` rather than for the identity `(0, 1)`. -/
theorem add_infinity_identity_law (P : Point) (hv : P.valid) :
    P.add Point.infinity = P ∧ Point.infinity.add P = P := by
  obtain ⟨px, py⟩ := P
  constructor
  · rw [Point.add, if_neg (valid_not_zero_zero hv)]
    simp only [Point.infinity, FQdiv_eq_div, Point.mk.injEq]
    constructor <;> simp
  · rw [Point.add, if_neg (by simp [Point.infinity])]
    simp only [Point.infinity, FQdiv_eq_div, Point.mk.injEq]
    constructor <;> simp

/-- Witness for C10 at the curve generator. -/
theorem add_infinity_identity_law_witness :
    Point.generator.valid ∧
      (Point.generator.add Point.infinity = Point.generator ∧
        Point.infinity.add Point.generator = Point.generator) :=
  ⟨by decide, add_infinity_identity_law Point.generator (by decide)⟩

/-! ### C6: representation round-trips -/

theorem etec_roundtrip (P : Point) : P.asEtec.asPoint = P := by
  obtain ⟨px, py⟩ := P
  simp [Point.asEtec, EtecPoint.asPoint, FQinv_one]

theorem proj_roundtrip (P : Point) : P.asProj.asPoint = P := by
  obtain ⟨px, py⟩ := P
  simp [Point.asProj, ProjPoint.asPoint, FQinv_one]

/-- On a valid point, `y = 1` forces `x = 0` (so the point is the identity). -/
theorem valid_y_eq_one {P : Point} (hv : P.valid) (hy : P.y = 1) : P.x = 0 := by
  rw [Point.valid, hy] at hv
  have h : (jubjubA - jubjubD) * (P.x * P.x) = 0 := by ring_nf; ring_nf at hv; linear_combination hv
  rcases mul_eq_zero.mp h with h' | h'
  · exact absurd h' fq_a_sub_d_ne_zero
  · rcases mul_eq_zero.mp h' with h'' | h'' <;> exact h''

/-- On a valid point, `x = 0` forces `y² = 1`. -/
theorem valid_x_eq_zero {P : Point} (hv : P.valid) (hx : P.x = 0) : P.y * P.y = 1 := by
  rw [Point.valid, hx] at hv
  simpa using hv

/-- On a valid point with `x ≠ 0`, `y = -1` is impossible. -/
theorem valid_y_ne_neg_one {P : Point} (hv : P.valid) (hx : P.x ≠ 0) : P.y ≠ -1 := by
  intro hy
  rw [Point.valid, hy] at hv
  have h : (jubjubA - jubjubD) * (P.x * P.x) = 0 := by ring_nf; ring_nf at hv; linear_combination hv
  rcases mul_eq_zero.mp h with h' | h'
  · exact absurd h' fq_a_sub_d_ne_zero
  · rcases mul_eq_zero.mp h' with h'' | h'' <;> exact hx h''

/-- The Montgomery round-trip on valid points other than the identity. -/
theorem mont_roundtrip (P : Point) (hv : P.valid) (hne : P ≠ Point.infinity) :
    P.asMont.asPoint = P := by
  have hy1 : P.y ≠ 1 := by
    intro hy
    exact hne (by
      obtain ⟨px, py⟩ := P
      have := valid_y_eq_one hv hy
      simp only at this hy
      rw [Point.infinity, this, hy])
  rw [Point.asMont, MontPoint.fromEdwards, if_neg hy1]
  by_cases hx : P.x = 0
  · rw [if_pos hx]
    have hysq := valid_x_eq_zero hv hx
    have hy : P.y = -1 := by
      rcases mul_self_eq_one_iff.mp hysq with h | h
      · exact absurd h hy1
      · exact h
    obtain ⟨px, py⟩ := P
    simp only at hx hy
    rw [MontPoint.asPoint]
    simp only [FQdiv_eq_div, hx, hy]
    rw [Point.mk.injEq]
    constructor
    · simp
    · norm_num
  · rw [if_neg hx]
    have hy1' : (1 : Fq) - P.y ≠ 0 := fun h => hy1 (by linear_combination -h)
    have hyn : P.y ≠ -1 := valid_y_ne_neg_one hv hx
    have hu : (1 : Fq) + P.y ≠ 0 := fun h => hyn (by linear_combination h)
    have hune : FQdiv (1 + P.y) (1 - P.y) ≠ 0 := by
      rw [FQdiv_eq_div]
      exact div_ne_zero hu hy1'
    obtain ⟨px, py⟩ := P
    simp only at hx hy1 hy1' hu hune hyn
    rw [MontPoint.asPoint]
    simp only [FQdiv_eq_div] at hune ⊢
    rw [Point.mk.injEq]
    have hu1 : (1 + py) / (1 - py) + 1 = 2 / (1 - py) := by
      field_simp
      ring
    have hu1ne : (1 + py) / (1 - py) + 1 ≠ 0 := by
      rw [hu1]; exact div_ne_zero fq_two_ne_zero hy1'
    constructor
    · field_simp
      ring
    · rw [div_eq_iff hu1ne]
      field_simp
      ring

/-- C6 (amended): converting to the extended or projective representation and
back is the identity on affine points, and converting to Montgomery form and
back is the identity on every valid point other than the identity `(0, 1)`
(which Montgomery form cannot represent: it round-trips to `(0, -1)`). -/
theorem representation_roundtrips :
    (∀ P : Point, P.asEtec.asPoint = P) ∧
      (∀ P : Point, P.asProj.asPoint = P) ∧
      (∀ P : Point, P.valid → P ≠ Point.infinity → P.asMont.asPoint = P) :=
  ⟨etec_roundtrip, proj_roundtrip, mont_roundtrip⟩

/-- Counterexample to C6 as stated: the identity point does not survive the
Montgomery round-trip; it comes back as `(0, -1)`. -/
theorem mont_roundtrip_fails_at_infinity :
    Point.infinity.asMont.asPoint ≠ Point.infinity := by decide

/-- Witness for C6 at the curve generator. -/
theorem representation_roundtrips_witness :
    Point.generator.valid ∧ Point.generator ≠ Point.infinity ∧
      (Point.generator.asEtec.asPoint = Point.generator ∧
        Point.generator.asMont.asPoint = Point.generator) :=
  ⟨by decide, by decide,
    representation_roundtrips.1 Point.generator,
    representation_roundtrips.2.2 Point.generator (by decide) (by decide)⟩


/-! ### C8: low-order points -/

theorem point_multAux_succ (fuel scalar : Nat) (p a : Point) :
    Point.multAux (fuel + 1) scalar p a =
      if scalar = 0 then a
      else Point.multAux fuel (scalar / 2) p.double (if scalar % 2 = 1 then a.add p else a) :=
  rfl

theorem orderTwoPt_double : orderTwoPt.double = Point.infinity := by decide

theorem infinity_double : Point.infinity.double = Point.infinity := by decide

theorem orderTwoPt_add_infinity : orderTwoPt.add Point.infinity = orderTwoPt := by decide

theorem infinity_add_infinity : Point.infinity.add Point.infinity = Point.infinity := by decide

theorem infinity_add_orderTwoPt : Point.infinity.add orderTwoPt = orderTwoPt := by decide

/-- Once the doubling register reaches the identity, the accumulator (if it is
the identity or the order-two point) never changes again. -/
theorem multAux_infinity_register (fuel : Nat) :
    ∀ scalar a, (a = orderTwoPt ∨ a = Point.infinity) →
      Point.multAux fuel scalar Point.infinity a = a := by
  induction fuel with
  | zero => intro scalar a _; rfl
  | succ n ih =>
      intro scalar a ha
      rw [point_multAux_succ]
      rcases eq_or_ne scalar 0 with rfl | hs
      · simp
      · rw [if_neg hs, infinity_double]
        have hadd : (if scalar % 2 = 1 then a.add Point.infinity else a) = a := by
          rcases ha with rfl | rfl
          · rcases Nat.decEq (scalar % 2) 1 with h | h <;>
              simp [h, orderTwoPt_add_infinity]
          · rcases Nat.decEq (scalar % 2) 1 with h | h <;>
              simp [h, infinity_add_infinity]
        rw [hadd]
        exact ih (scalar / 2) a ha

/-- Multiplying the order-two point by the (odd) subgroup order returns the
point itself, not the identity. -/
theorem orderTwoPt_mult_L : orderTwoPt.mult JUBJUB_L = orderTwoPt := by
  rw [Point.mult]
  have h1 : JUBJUB_L = (JUBJUB_L - 1) + 1 := by decide
  nth_rewrite 1 [h1]
  rw [point_multAux_succ]
  rw [if_neg (by decide), if_pos (by decide)]
  rw [orderTwoPt_double, infinity_add_orderTwoPt]
  exact multAux_infinity_register _ _ _ (Or.inl rfl)

/-- Counterexample to C8 as stated: the enumerated low-order point `(0, -1)`
multiplied by the subgroup order `JUBJUB_L` is itself, not the identity. -/
theorem loworder_mult_L_not_identity :
    ((allLoworderPoints.get? 1).map fun P => P.mult JUBJUB_L = Point.infinity) = some False := by
  have hget : allLoworderPoints.get? 1 = some orderTwoPt := by rfl
  rw [hget]
  show some (orderTwoPt.mult JUBJUB_L = Point.infinity) = some False
  rw [orderTwoPt_mult_L]
  simp only [Option.some.injEq, eq_iff_iff, iff_false]
  intro h
  exact absurd (congrArg Point.y h) (by decide)

/-- C8 (amended): each of the 8 enumerated low-order points satisfies the
curve equation, and multiplying each by the cofactor `JUBJUB_C = 8` (hence by
any multiple of it, such as the full curve order `JUBJUB_E`) yields the
identity. -/
theorem loworder_points_valid_and_cofactor_kills :
    (allLoworderPoints.all fun P =>
      decide P.valid && (P.mult JUBJUB_C == Point.infinity)) = true := by decide


/-! ### C9, step 1: the `jacobi` routine computes the Jacobi symbol -/

theorem split2_even (fuel a : Nat) (h : a % 2 = 0) :
    split2 (fuel + 1) a = ((split2 fuel (a / 2)).1, (split2 fuel (a / 2)).2 + 1) := by
  simp [split2, h]

theorem split2_odd (fuel a : Nat) (h : ¬a % 2 = 0) : split2 (fuel + 1) a = (a, 0) := by
  simp [split2, h]

theorem split2_spec : ∀ fuel a, 0 < a → a ≤ fuel →
    (split2 fuel a).1 % 2 = 1 ∧ (split2 fuel a).1 * 2 ^ (split2 fuel a).2 = a := by
  intro fuel
  induction fuel with
  | zero => intro a ha hle; omega
  | succ n ih =>
      intro a ha hle
      by_cases h2 : a % 2 = 0
      · have ha2 : 0 < a / 2 := by omega
        have hle2 : a / 2 ≤ n := by omega
        obtain ⟨hodd, hprod⟩ := ih (a / 2) ha2 hle2
        rw [split2_even n a h2]
        refine ⟨hodd, ?_⟩
        show (split2 n (a / 2)).1 * 2 ^ ((split2 n (a / 2)).2 + 1) = a
        rw [pow_succ, ← mul_assoc, hprod]
        omega
      · rw [split2_odd n a h2]
        exact ⟨by omega, by simp⟩

open NumberTheorySymbols in
theorem jacobiAux_correct : ∀ fuel a n, n % 2 = 1 → 3 ≤ n → n ≤ fuel →
    jacobiAux fuel a n = J((a : Int) | n) := by
  intro fuel
  induction fuel with
  | zero => intro a n h1 h2 h3; omega
  | succ N ih =>
      intro a n hodd h3 hle
      have hmodJ : J((a : Int) | n) = J(((a % n : Nat) : Int) | n) := by
        rw [jacobiSym.mod_left (a : Int) n]
        push_cast
        rfl
      rw [hmodJ]
      set a' := a % n with ha'
      show jacobiAux (N + 1) a n = _
      rw [jacobiAux]
      simp only [← ha']
      by_cases h0 : a' = 0
      · rw [if_pos h0, h0]
        rw [Nat.cast_zero]
        exact (jacobiSym.zero_left (by omega : 1 < n)).symm
      rw [if_neg h0]
      by_cases h1 : a' = 1
      · rw [if_pos h1, h1]
        exact (jacobiSym.one_left n).symm
      rw [if_neg h1]
      obtain ⟨hsodd, hsprod⟩ := split2_spec a' a' (by omega) (le_refl a')
      set a1 := (split2 a' a').1 with ha1
      set e := (split2 a' a').2 with he
      have hna : Odd n := Nat.odd_iff.mpr hodd
      have hsplitJ : J((a' : Int) | n) = J((a1 : Int) | n) * J((2 : Int) | n) ^ e := by
        rw [← hsprod]
        push_cast
        rw [jacobiSym.mul_left, jacobiSym.pow_left]
      have hchi : J((2 : Int) | n) = if n % 8 = 1 ∨ n % 8 = 7 then 1 else -1 := by
        rw [jacobiSym.at_two hna, ZMod.χ₈_nat_eq_if_mod_eight]
        rw [if_neg (by omega)]
      have hpow2 : J((2 : Int) | n) ^ e =
          (if e % 2 = 0 ∨ n % 8 = 1 ∨ n % 8 = 7 then (1 : Int) else -1) := by
        rw [hchi]
        by_cases hn8 : n % 8 = 1 ∨ n % 8 = 7
        · rw [if_pos hn8, one_pow, if_pos (Or.inr hn8)]
        · rw [if_neg hn8]
          by_cases he2 : e % 2 = 0
          · rw [Even.neg_one_pow (Nat.even_iff.mpr he2), if_pos (Or.inl he2)]
          · rw [Odd.neg_one_pow (Nat.odd_iff.mpr (by omega)), if_neg (by tauto)]
      by_cases ha1one : a1 = 1
      · rw [if_pos ha1one]
        rw [hsplitJ, ha1one]
        push_cast
        rw [jacobiSym.one_left, one_mul, hpow2]
      rw [if_neg ha1one]
      -- the recursive call
      have ha1pos : 0 < a1 := by
        rcases Nat.eq_zero_or_pos a1 with h | h
        · rw [h] at hsprod; simp at hsprod; omega
        · exact h
      have ha1le : a1 ≤ a' := Nat.le_of_dvd (by omega) ⟨2 ^ e, hsprod.symm⟩
      have ha'lt : a' < n := Nat.mod_lt _ (by omega)
      have ha13 : 3 ≤ a1 := by omega
      have hrec := ih (n % a1) a1 hsodd ha13 (by omega)
      -- reciprocity
      have hrecip := jacobiSym.quadratic_reciprocity_if hsodd hodd
      have hmod2 : J((n : Int) | a1) = J(((n % a1 : Nat) : Int) | a1) := by
        rw [jacobiSym.mod_left (n : Int) a1]
        push_cast
        rfl
      rw [hrec, hsplitJ, hpow2, ← hrecip, hmod2]
      set s₂ : Int := if e % 2 = 0 ∨ n % 8 = 1 ∨ n % 8 = 7 then 1 else -1 with hs₂
      by_cases hc : n % 4 = 3 ∧ a1 % 4 = 3
      · rw [if_pos hc, if_pos (⟨hc.2, hc.1⟩ : a1 % 4 = 3 ∧ n % 4 = 3)]
        ring
      · rw [if_neg hc, if_neg (fun h => hc ⟨h.2, h.1⟩)]
        ring

open NumberTheorySymbols in
theorem jacobiInt_correct (a : Int) (n : Nat) (hodd : n % 2 = 1) (h3 : 3 ≤ n) :
    jacobiInt a n = J(a | n) := by
  rw [jacobiInt, jacobiAux_correct n _ n hodd h3 (le_refl n)]
  rw [jacobiSym.mod_left a n]
  congr 1
  have hn : (0 : Int) < (n : Int) := by exact_mod_cast (by omega : 0 < n)
  rw [Int.toNat_of_nonneg (Int.emod_nonneg a (by omega))]

/-! ### C9, step 2: the `polynomial_exp_mod` simulation lemmas -/

theorem polyMult_two (x0 x1 y0 y1 a mb : Int) (p : Nat) (hp : 0 < p) :
    polyMult [x0, x1] [y0, y1] [a, mb, 1] p =
      if (x1 * y1) % (p : Int) = 0 then
        [x0 * y0 % (p : Int), (x0 * y1 % (p : Int) + x1 * y0) % (p : Int)]
      else
        [(x0 * y0 % (p : Int) - (x1 * y1) % (p : Int) * a) % (p : Int),
         ((x0 * y1 % (p : Int) + x1 * y0) % (p : Int) - (x1 * y1) % (p : Int) * mb) % (p : Int)] := by
  show polyReduce _ _ _ = _
  by_cases hc : (x1 * y1) % (p : Int) = 0
  · rw [if_pos hc]
    show polyReduceAux 3 _ _ _ = _
    simp only [polyReduceAux, polyReduceStep]
    norm_num [hc, List.set, List.getLast?, List.range_succ]
  · rw [if_neg hc]
    show polyReduceAux 3 _ _ _ = _
    simp only [polyReduceAux, polyReduceStep]
    norm_num [hc, List.set, List.getLast?, List.range_succ]

theorem polyMult_two_length (x0 x1 y0 y1 a mb : Int) (p : Nat) (hp : 0 < p) :
    (polyMult [x0, x1] [y0, y1] [a, mb, 1] p).length = 2 := by
  rw [polyMult_two _ _ _ _ _ _ _ hp]
  split <;> rfl

theorem polyMult_two_bounds (x0 x1 y0 y1 a mb : Int) (p : Nat) (hp : 0 < p) :
    ∀ v ∈ polyMult [x0, x1] [y0, y1] [a, mb, 1] p, 0 ≤ v ∧ v < (p : Int) := by
  have hpi : (0 : Int) < (p : Int) := by exact_mod_cast hp
  rw [polyMult_two _ _ _ _ _ _ _ hp]
  split <;>
    · intro v hv
      rcases List.mem_cons.mp hv with rfl | hv
      · exact ⟨Int.emod_nonneg _ (by omega), Int.emod_lt_of_pos _ hpi⟩
      rcases List.mem_cons.mp hv with rfl | hv
      · exact ⟨Int.emod_nonneg _ (by omega), Int.emod_lt_of_pos _ hpi⟩
      simp at hv

theorem intCast_emod_zmod (p : Nat) (x : Int) : (((x % (p : Int)) : Int) : ZMod p) = (x : ZMod p) := by
  rw [Int.emod_def]
  push_cast
  simp [ZMod.natCast_self]

section Interp

variable {p : Nat} {K : Type} [CommRing K] (φ : ZMod p →+* K) (θ : K)

variable {b c : ZMod p}

theorem interp_polyMult (hθ : θ ^ 2 = φ b * θ - φ c) (x0 x1 y0 y1 ac mb : Int)
    (hac : ((ac : Int) : ZMod p) = c) (hmb : ((mb : Int) : ZMod p) = -b) (hp : 0 < p) :
    interp φ θ (polyMult [x0, x1] [y0, y1] [ac, mb, 1] p) =
      interp φ θ [x0, x1] * interp φ θ [y0, y1] := by
  have ic : ∀ x : Int, (((x % (p : Int)) : Int) : ZMod p) = (x : ZMod p) := intCast_emod_zmod p
  have expand : ∀ z0 z1 w0 w1 : ZMod p,
      (φ z0 + φ z1 * θ) * (φ w0 + φ w1 * θ) =
        φ (z0 * w0 - z1 * w1 * c) + φ (z0 * w1 + z1 * w0 + z1 * w1 * b) * θ := by
    intro z0 z1 w0 w1
    simp only [map_sub, map_add, map_mul]
    linear_combination (φ z1 * φ w1) * hθ
  rw [polyMult_two _ _ _ _ _ _ _ hp]
  split
  · rename_i hzero
    have h11 : (x1 : ZMod p) * (y1 : ZMod p) = 0 := by
      have := ic (x1 * y1)
      rw [hzero] at this
      push_cast at this
      linear_combination -this
    unfold interp
    simp only [List.getD_cons_zero, List.getD_cons_succ]
    rw [expand]
    have hA : (((x0 * y0 % (p : Int)) : Int) : ZMod p) =
        (x0 : ZMod p) * y0 - (x1 : ZMod p) * y1 * c := by
      rw [ic]; push_cast; rw [h11]; ring_nf
    have hB : ((((x0 * y1 % (p : Int) + x1 * y0) % (p : Int)) : Int) : ZMod p) =
        (x0 : ZMod p) * y1 + (x1 : ZMod p) * y0 + (x1 : ZMod p) * y1 * b := by
      rw [ic]; push_cast [ic]; rw [h11]; try ring
    rw [hA, hB]
  · unfold interp
    simp only [List.getD_cons_zero, List.getD_cons_succ]
    rw [expand]
    have hA : ((((x0 * y0 % (p : Int) - x1 * y1 % (p : Int) * ac) % (p : Int)) : Int) : ZMod p) =
        (x0 : ZMod p) * y0 - (x1 : ZMod p) * y1 * c := by
      rw [ic]; push_cast [ic]; rw [hac]; try ring
    have hB : ((((x0 * y1 % (p : Int) + x1 * y0) % (p : Int) -
        x1 * y1 % (p : Int) * mb) % (p : Int) : Int) : ZMod p) =
        (x0 : ZMod p) * y1 + (x1 : ZMod p) * y0 + (x1 : ZMod p) * y1 * b := by
      rw [ic]; push_cast [ic]; rw [hmb]; try ring
    rw [hA, hB]

end Interp

section Loop

variable {p : Nat} {K : Type} [CommRing K] (φ : ZMod p →+* K) (θ : K)
variable {b c : ZMod p}

theorem goodList_shape {p : Nat} {l : List Int} (h : GoodList p l) :
    ∃ v0 v1, l = [v0, v1] := by
  obtain ⟨hl, _⟩ := h
  match l, hl with
  | [v0, v1], _ => exact ⟨v0, v1, rfl⟩

theorem goodList_polyMult {p : Nat} (hp : 0 < p) {l1 l2 : List Int} (ac mb : Int)
    (h1 : GoodList p l1) (h2 : GoodList p l2) :
    GoodList p (polyMult l1 l2 [ac, mb, 1] p) := by
  obtain ⟨x0, x1, rfl⟩ := goodList_shape h1
  obtain ⟨y0, y1, rfl⟩ := goodList_shape h2
  exact ⟨polyMult_two_length _ _ _ _ _ _ _ hp, polyMult_two_bounds _ _ _ _ _ _ _ hp⟩

theorem interp_polyMult' (hθ : θ ^ 2 = φ b * θ - φ c) {l1 l2 : List Int} (ac mb : Int)
    (hac : ((ac : Int) : ZMod p) = c) (hmb : ((mb : Int) : ZMod p) = -b) (hp : 0 < p)
    (h1 : GoodList p l1) (h2 : GoodList p l2) :
    interp φ θ (polyMult l1 l2 [ac, mb, 1] p) = interp φ θ l1 * interp φ θ l2 := by
  obtain ⟨x0, x1, rfl⟩ := goodList_shape h1
  obtain ⟨y0, y1, rfl⟩ := goodList_shape h2
  exact interp_polyMult φ θ hθ x0 x1 y0 y1 ac mb hac hmb hp

theorem polyExpModAux_interp (hθ : θ ^ 2 = φ b * θ - φ c) (ac mb : Int)
    (hac : ((ac : Int) : ZMod p) = c) (hmb : ((mb : Int) : ZMod p) = -b) (hp : 0 < p) :
    ∀ fuel k G s, k ≤ fuel → GoodList p G → GoodList p s →
      GoodList p (polyExpModAux fuel k G s [ac, mb, 1] p) ∧
        interp φ θ (polyExpModAux fuel k G s [ac, mb, 1] p) =
          interp φ θ s * interp φ θ G ^ (k - k % 2) := by
  intro fuel
  induction fuel with
  | zero =>
      intro k G s hk hG hs
      interval_cases k
      simp [polyExpModAux, hs]
  | succ n ih =>
      intro k G s hk hG hs
      show GoodList p (polyExpModAux (n + 1) k G s [ac, mb, 1] p) ∧ _
      rw [polyExpModAux]
      by_cases h1 : 1 < k
      · rw [if_pos h1]
        have hG' : GoodList p (polyMult G G [ac, mb, 1] p) := goodList_polyMult hp ac mb hG hG
        have hs' : GoodList p (if k / 2 % 2 = 1 then polyMult (polyMult G G [ac, mb, 1] p) s [ac, mb, 1] p else s) := by
          split
          · exact goodList_polyMult hp ac mb hG' hs
          · exact hs
        obtain ⟨hgood, hval⟩ := ih (k / 2) _ _ (by omega) hG' hs'
        refine ⟨hgood, ?_⟩
        rw [hval]
        rw [interp_polyMult' φ θ hθ ac mb hac hmb hp hG hG]
        have hexp : (k / 2 - k / 2 % 2) * 2 + (if k / 2 % 2 = 1 then 2 else 0) = k - k % 2 := by
          by_cases h2 : k / 2 % 2 = 1
          · rw [if_pos h2]; omega
          · rw [if_neg h2]; omega
        split
        · rename_i hodd2
          rw [interp_polyMult' φ θ hθ ac mb hac hmb hp hG' hs]
          rw [interp_polyMult' φ θ hθ ac mb hac hmb hp hG hG]
          rw [if_pos hodd2] at hexp
          calc (interp φ θ G * interp φ θ G * interp φ θ s) *
                (interp φ θ G * interp φ θ G) ^ (k / 2 - k / 2 % 2) =
              interp φ θ s * interp φ θ G ^ ((k / 2 - k / 2 % 2) * 2 + 2) := by ring
            _ = interp φ θ s * interp φ θ G ^ (k - k % 2) := by rw [hexp]
        · rename_i hodd2
          rw [if_neg hodd2] at hexp
          calc interp φ θ s * (interp φ θ G * interp φ θ G) ^ (k / 2 - k / 2 % 2) =
              interp φ θ s * interp φ θ G ^ ((k / 2 - k / 2 % 2) * 2 + 0) := by ring
            _ = interp φ θ s * interp φ θ G ^ (k - k % 2) := by rw [hexp]
      · rw [if_neg h1]
        have hk2 : k - k % 2 = 0 := by omega
        rw [hk2, pow_zero, mul_one]
        exact ⟨hs, rfl⟩

theorem polyExpMod_interp (hθ : θ ^ 2 = φ b * θ - φ c) (ac mb : Int)
    (hac : ((ac : Int) : ZMod p) = c) (hmb : ((mb : Int) : ZMod p) = -b) (hp : 2 ≤ p)
    (e : Nat) (he : e % 2 = 1) :
    GoodList p (polyExpMod [0, 1] e [ac, mb, 1] p) ∧
      interp φ θ (polyExpMod [0, 1] e [ac, mb, 1] p) = θ ^ e := by
  have hz : GoodList p [(0 : Int), 1] := by
    refine ⟨rfl, ?_⟩
    intro v hv
    rcases List.mem_cons.mp hv with rfl | hv
    · constructor <;> omega
    rcases List.mem_cons.mp hv with rfl | hv
    · have : (1 : Int) < (p : Int) := by exact_mod_cast hp
      constructor <;> omega
    simp at hv
  rw [polyExpMod, if_neg (by omega), if_pos he]
  obtain ⟨hgood, hval⟩ := polyExpModAux_interp φ θ hθ ac mb hac hmb (by omega) e e [0, 1] [0, 1]
    (le_refl e) hz hz
  refine ⟨hgood, ?_⟩
  rw [hval]
  have hi : interp φ θ [(0 : Int), 1] = θ := by
    unfold interp
    simp
  rw [hi]
  rw [← pow_succ']
  congr 1
  omega

end Loop

/-! ### C9, step 3: Cipolla field theory over the quadratic extension -/

open Polynomial

section CipollaCore

variable {p : ℕ} [hpF : Fact p.Prime]

theorem cPoly_natDegree (b c : ZMod p) : (cPoly b c).natDegree = 2 := by
  unfold cPoly
  compute_degree!

theorem cPoly_monic (b c : ZMod p) : (cPoly b c).Monic := by
  unfold cPoly
  monicity!

theorem cPoly_coeff_zero (b c : ZMod p) : (cPoly b c).coeff 0 = c := by
  unfold cPoly
  simp [coeff_X_pow]

theorem cPoly_coeff_one (b c : ZMod p) : (cPoly b c).coeff 1 = -b := by
  unfold cPoly
  simp [coeff_X_pow]

end CipollaCore

section CipollaIrr

variable {p : ℕ} [hpF : Fact p.Prime]

theorem cPoly_irreducible {b c : ZMod p} (hns : ¬IsSquare (b * b - 4 * c)) :
    Irreducible (cPoly b c) := by
  by_contra hcon
  obtain ⟨c₁, c₂, h0, h1⟩ :=
    ((cPoly_monic b c).not_irreducible_iff_exists_add_mul_eq_coeff (cPoly_natDegree b c)).mp hcon
  rw [cPoly_coeff_zero] at h0
  rw [cPoly_coeff_one] at h1
  exact hns ⟨c₁ - c₂, by linear_combination (-4 : ZMod p) * h0 + (c₁ + c₂ - b) * h1⟩

-- no root in the base field
theorem cPoly_no_root {b c : ZMod p} (hodd : p % 2 = 1) (hns : ¬IsSquare (b * b - 4 * c))
    (x : ZMod p) : x * x - b * x + c ≠ 0 := by
  intro hroot
  have h2 : (2 : ZMod p) ≠ 0 := by
    have : ((2 : ℕ) : ZMod p) ≠ 0 := by
      rw [Ne, ZMod.natCast_zmod_eq_zero_iff_dvd]
      intro hdvd
      have := (Nat.prime_dvd_prime_iff_eq hpF.out Nat.prime_two).mp hdvd
      omega
    simpa using this
  exact hns ⟨2 * x - b, by linear_combination -4 * hroot⟩

end CipollaIrr

section CipollaField

variable {p : ℕ} [hpF : Fact p.Prime] {b c : ZMod p}

-- the quadratic extension
theorem adjoin_theta_sq :
    (AdjoinRoot.root (cPoly b c)) ^ 2 =
      algebraMap (ZMod p) _ b * AdjoinRoot.root (cPoly b c) - algebraMap (ZMod p) _ c := by
  have h := AdjoinRoot.isRoot_root (cPoly b c)
  rw [IsRoot.def, cPoly] at h
  simp only [eval_map, eval₂_add, eval₂_sub, eval₂_pow, eval₂_mul, eval₂_X, eval₂_C] at h
  have : (AdjoinRoot.root (cPoly b c)) ^ 2 -
      (AdjoinRoot.of (cPoly b c)) b * AdjoinRoot.root (cPoly b c) +
      (AdjoinRoot.of (cPoly b c)) c = 0 := h
  rw [AdjoinRoot.algebraMap_eq]
  linear_combination this

-- elements fixed by x ↦ x^p lie in the image of the base field
theorem pow_card_fixed_mem_range {K : Type*} [Field K] [Algebra (ZMod p) K]
    (x : K) (hx : x ^ p = x) : ∃ y : ZMod p, algebraMap (ZMod p) K y = x := by
  classical
  set S : Finset K := Finset.univ.image (algebraMap (ZMod p) K) with hS
  have hginj : Function.Injective (algebraMap (ZMod p) K) := (algebraMap (ZMod p) K).injective
  have hcardS : S.card = p := by
    rw [hS, Finset.card_image_of_injective _ hginj, Finset.card_univ, ZMod.card]
  set g : K[X] := X ^ p - X with hg
  have hdegX : (X : K[X]).natDegree < (X ^ p : K[X]).natDegree := by
    rw [natDegree_X, natDegree_X_pow]
    exact hpF.out.one_lt
  have hgdeg : g.natDegree = p := by
    rw [hg, natDegree_sub_eq_left_of_natDegree_lt hdegX, natDegree_X_pow]
  have hgne : g ≠ 0 := by
    intro h0
    rw [h0, natDegree_zero] at hgdeg
    exact absurd hgdeg.symm hpF.out.ne_zero
  have hSroots : ∀ s ∈ S, g.IsRoot s := by
    intro s hs
    obtain ⟨y, _, rfl⟩ := Finset.mem_image.mp hs
    rw [hg, IsRoot.def, eval_sub, eval_pow, eval_X, ← map_pow, ZMod.pow_card, sub_self]
  by_contra hnot
  push_neg at hnot
  have hxS : x ∉ S := by
    intro hxS
    obtain ⟨y, _, hy⟩ := Finset.mem_image.mp hxS
    exact hnot y hy
  have hxroot : g.IsRoot x := by
    rw [hg, IsRoot.def, eval_sub, eval_pow, eval_X, hx, sub_self]
  have hsub : insert x S ⊆ g.roots.toFinset := by
    intro z hz
    rw [Multiset.mem_toFinset, mem_roots hgne]
    rcases Finset.mem_insert.mp hz with rfl | hzS
    · exact hxroot
    · exact hSroots z hzS
  have hcard : p + 1 ≤ g.roots.toFinset.card := by
    have := Finset.card_le_card hsub
    rwa [Finset.card_insert_of_not_mem hxS, hcardS] at this
  have hcard2 : g.roots.toFinset.card ≤ p := by
    calc g.roots.toFinset.card ≤ Multiset.card g.roots := g.roots.toFinset_card_le
    _ ≤ g.natDegree := g.card_roots'
    _ = p := hgdeg
  omega

end CipollaField

section CipollaFrob

variable {p : ℕ} [hpF : Fact p.Prime] {b c : ZMod p}

theorem adjoin_charP [Fact (Irreducible (cPoly b c))] : CharP (AdjoinRoot (cPoly b c)) p :=
  charP_of_injective_algebraMap (algebraMap (ZMod p) (AdjoinRoot (cPoly b c))).injective p

theorem theta_eq_zero_of_defining [Fact (Irreducible (cPoly b c))] (hodd : p % 2 = 1) (hns : ¬IsSquare (b * b - 4 * c))
    (y : ZMod p)
    (hy : algebraMap (ZMod p) (AdjoinRoot (cPoly b c)) y = AdjoinRoot.root (cPoly b c)) :
    False := by
  have hsq := @adjoin_theta_sq p hpF b c
  rw [← hy] at hsq
  rw [← map_pow, ← map_mul, ← map_sub] at hsq
  have hinj := (algebraMap (ZMod p) (AdjoinRoot (cPoly b c))).injective
  have hy2 : y ^ 2 = b * y - c := hinj hsq
  exact cPoly_no_root hodd hns y (by linear_combination hy2)

theorem theta_pow_card [Fact (Irreducible (cPoly b c))] (hodd : p % 2 = 1)
    (hns : ¬IsSquare (b * b - 4 * c)) :
    (AdjoinRoot.root (cPoly b c)) ^ p =
      algebraMap (ZMod p) _ b - AdjoinRoot.root (cPoly b c) := by
  haveI := @adjoin_charP p hpF b c _
  have hsq := @adjoin_theta_sq p hpF b c
  have h0 : (AdjoinRoot.root (cPoly b c)) ^ 2
      - algebraMap (ZMod p) _ b * AdjoinRoot.root (cPoly b c)
      + algebraMap (ZMod p) _ c = 0 := by rw [hsq]; ring
  have h1 := congrArg (frobenius (AdjoinRoot (cPoly b c)) p) h0
  simp only [map_zero, map_add, map_sub, map_mul, map_pow, frobenius_def] at h1
  rw [← map_pow (algebraMap (ZMod p) (AdjoinRoot (cPoly b c))) b p] at h1
  rw [← map_pow (algebraMap (ZMod p) (AdjoinRoot (cPoly b c))) c p] at h1
  rw [ZMod.pow_card, ZMod.pow_card] at h1
  have hfactor : ((AdjoinRoot.root (cPoly b c)) ^ p - AdjoinRoot.root (cPoly b c)) *
      ((AdjoinRoot.root (cPoly b c)) ^ p -
        (algebraMap (ZMod p) _ b - AdjoinRoot.root (cPoly b c))) = 0 := by
    linear_combination h1 - h0
  rcases mul_eq_zero.mp hfactor with h | h
  · exfalso
    obtain ⟨y, hy⟩ := pow_card_fixed_mem_range (AdjoinRoot.root (cPoly b c))
      (by linear_combination h)
    exact theta_eq_zero_of_defining hodd hns y hy
  · linear_combination h

end CipollaFrob

section CipollaSqrt

variable {p : ℕ} [hpF : Fact p.Prime] {b c : ZMod p}

theorem theta_pow_card_add_one [Fact (Irreducible (cPoly b c))] (hodd : p % 2 = 1)
    (hns : ¬IsSquare (b * b - 4 * c)) :
    (AdjoinRoot.root (cPoly b c)) ^ (p + 1) = algebraMap (ZMod p) _ c := by
  have hsq := @adjoin_theta_sq p hpF b c
  have hp := theta_pow_card (b := b) (c := c) hodd hns
  rw [pow_succ, hp]
  linear_combination -hsq

/-- The heart of Cipolla's algorithm: `θ^((p+1)/2)` lies in the base field and
its square is `c`. -/
theorem cipolla_root_exists [Fact (Irreducible (cPoly b c))] (hodd : p % 2 = 1)
    (hns : ¬IsSquare (b * b - 4 * c)) (hc0 : c ≠ 0) (hsqc : IsSquare c) :
    ∃ r : ZMod p,
      algebraMap (ZMod p) (AdjoinRoot (cPoly b c)) r =
        (AdjoinRoot.root (cPoly b c)) ^ ((p + 1) / 2) ∧ r ^ 2 = c := by
  have hp1 : ((p + 1) / 2) * 2 = p + 1 := by
    have := hpF.out.two_le
    omega
  have hpow : ((AdjoinRoot.root (cPoly b c)) ^ ((p + 1) / 2)) ^ 2 =
      algebraMap (ZMod p) _ c := by
    rw [← pow_mul, hp1]
    exact theta_pow_card_add_one hodd hns
  -- Euler: c^((p-1)/2) = 1 since c is a nonzero square
  have heuler : c ^ (p / 2) = 1 := (ZMod.euler_criterion p hc0).mp hsqc
  have hexp : ((p + 1) / 2) * (p - 1) = (p + 1) * (p / 2) := by
    obtain ⟨m, hm⟩ : ∃ m, p = 2 * m + 1 := ⟨p / 2, by omega⟩
    subst hm
    have h1 : (2 * m + 1 + 1) / 2 = m + 1 := by omega
    have h2 : 2 * m + 1 - 1 = 2 * m := by omega
    have h3 : (2 * m + 1) / 2 = m := by omega
    rw [h1, h2, h3]
    ring
  have hfix : ((AdjoinRoot.root (cPoly b c)) ^ ((p + 1) / 2)) ^ p =
      (AdjoinRoot.root (cPoly b c)) ^ ((p + 1) / 2) := by
    have hne : ((AdjoinRoot.root (cPoly b c)) ^ ((p + 1) / 2)) ^ (p - 1) = 1 := by
      rw [← pow_mul, hexp, pow_mul, theta_pow_card_add_one hodd hns, ← map_pow, heuler, map_one]
    have hcalc : ((AdjoinRoot.root (cPoly b c)) ^ ((p + 1) / 2)) ^ p =
        ((AdjoinRoot.root (cPoly b c)) ^ ((p + 1) / 2)) ^ (p - 1) *
          (AdjoinRoot.root (cPoly b c)) ^ ((p + 1) / 2) := by
      rw [← pow_succ]
      congr 1
      have := hpF.out.two_le
      omega
    rw [hcalc, hne, one_mul]
  obtain ⟨r, hr⟩ := pow_card_fixed_mem_range _ hfix
  refine ⟨r, hr, ?_⟩
  have : algebraMap (ZMod p) (AdjoinRoot (cPoly b c)) (r ^ 2) = algebraMap (ZMod p) _ c := by
    rw [map_pow, hr, hpow]
  exact (algebraMap (ZMod p) (AdjoinRoot (cPoly b c))).injective this

end CipollaSqrt

/-! ### C9, step 4: existence of a suitable `b` in the Cipolla search -/

section CharSum

open Finset

variable {p : ℕ} [hpF : Fact p.Prime]

theorem two_ne_zero_zmod (hodd : p % 2 = 1) : (2 : ZMod p) ≠ 0 := by
  have : ((2 : ℕ) : ZMod p) ≠ 0 := by
    rw [Ne, ZMod.natCast_zmod_eq_zero_iff_dvd]
    intro hdvd
    have := (Nat.prime_dvd_prime_iff_eq hpF.out Nat.prime_two).mp hdvd
    omega
  simpa using this

theorem card_hyperbola (hodd : p % 2 = 1) (c : ZMod p) (hc : c ≠ 0) :
    (univ.filter fun z : ZMod p × ZMod p => z.1 ^ 2 - z.2 ^ 2 = c).card = p - 1 := by
  classical
  have h2 : (2 : ZMod p) ≠ 0 := two_ne_zero_zmod hodd
  have hcard := Finset.card_bij'
    (s := univ.filter fun u : ZMod p => u ≠ 0)
    (t := univ.filter fun z : ZMod p × ZMod p => z.1 ^ 2 - z.2 ^ 2 = c)
    (i := fun u _ => ((u + c / u) / 2, (u - c / u) / 2))
    (j := fun z _ => z.1 + z.2)
    ?hi ?hj ?left ?right
  · rw [← hcard]
    rw [Finset.filter_ne']
    rw [Finset.card_erase_of_mem (Finset.mem_univ 0), Finset.card_univ, ZMod.card]
  · intro u hu
    have hu0 : u ≠ 0 := by simpa using hu
    simp only [Finset.mem_filter, Finset.mem_univ, true_and]
    field_simp
    ring
  · intro z hz
    simp only [Finset.mem_filter, Finset.mem_univ, true_and] at hz ⊢
    intro hsum
    apply hc
    rw [← hz]
    have : z.2 = -z.1 := by linear_combination hsum
    rw [this]
    ring
  · intro u hu
    have hu0 : u ≠ 0 := by simpa using hu
    dsimp only
    field_simp
    ring
  · intro z hz
    simp only [Finset.mem_filter, Finset.mem_univ, true_and] at hz
    dsimp only
    have hsum : z.1 + z.2 ≠ 0 := by
      intro hsum
      apply hc
      rw [← hz]
      have : z.2 = -z.1 := by linear_combination hsum
      rw [this]
      ring
    have hdiv : c / (z.1 + z.2) = z.1 - z.2 := by
      rw [div_eq_iff hsum, ← hz]
      ring
    rw [hdiv]
    have hx : (z.1 + z.2 + (z.1 - z.2)) / 2 = z.1 := by
      field_simp
      ring
    have hy : (z.1 + z.2 - (z.1 - z.2)) / 2 = z.2 := by
      field_simp
      ring
    rw [hx, hy]

theorem sum_quadChar_sq_sub (hodd : p % 2 = 1) (c : ZMod p) (hc : c ≠ 0) :
    ∑ x : ZMod p, quadraticChar (ZMod p) (x ^ 2 - c) = -1 := by
  classical
  have hchar2 : ringChar (ZMod p) ≠ 2 := by
    rw [ZMod.ringChar_zmod_n]
    omega
  have hfiber : ∀ x : ZMod p,
      ((univ.filter fun y : ZMod p => y ^ 2 = x ^ 2 - c).card : ℤ) =
        quadraticChar (ZMod p) (x ^ 2 - c) + 1 := by
    intro x
    have := quadraticChar_card_sqrts hchar2 (x ^ 2 - c)
    rw [← this]
    congr 1
    rw [Set.toFinset_setOf]
  have hsplit : (univ.filter fun z : ZMod p × ZMod p => z.1 ^ 2 - z.2 ^ 2 = c).card =
      ∑ x : ZMod p, (univ.filter fun y : ZMod p => y ^ 2 = x ^ 2 - c).card := by
    rw [Finset.card_eq_sum_card_fiberwise
      (f := Prod.fst) (t := univ) (fun z _ => Finset.mem_univ _)]
    apply Finset.sum_congr rfl
    intro x _
    refine Finset.card_bij' (i := fun z _ => z.2) (j := fun y _ => (x, y)) ?_ ?_ ?_ ?_
    · intro z hz
      simp only [Finset.mem_filter, Finset.mem_univ, true_and] at hz ⊢
      obtain ⟨h1, h2⟩ := hz
      rw [← h2]
      linear_combination -h1
    · intro y hy
      simp only [Finset.mem_filter, Finset.mem_univ, true_and] at hy ⊢
      exact ⟨by linear_combination -hy, trivial⟩
    · intro z hz
      simp only [Finset.mem_filter, Finset.mem_univ, true_and] at hz
      dsimp only
      rw [← hz.2]
    · intro y hy
      rfl
  have hq := card_hyperbola hodd c hc
  have hcast : ((p - 1 : ℕ) : ℤ) = (p : ℤ) - 1 := by
    have := hpF.out.two_le
    omega
  have : ((p - 1 : ℕ) : ℤ) = ∑ x : ZMod p, (quadraticChar (ZMod p) (x ^ 2 - c) + 1) := by
    rw [← hq, hsplit]
    push_cast
    apply Finset.sum_congr rfl
    intro x _
    exact hfiber x
  rw [Finset.sum_add_distrib, Finset.sum_const, Finset.card_univ, ZMod.card,
    nsmul_eq_mul, mul_one] at this
  rw [hcast] at this
  omega

theorem quadChar_cases (d : ZMod p) :
    quadraticChar (ZMod p) d = 0 ∨ quadraticChar (ZMod p) d = 1 ∨
      quadraticChar (ZMod p) d = -1 := by
  by_cases h0 : d = 0
  · exact Or.inl (by rw [h0]; exact quadraticChar_zero)
  by_cases hs : IsSquare d
  · exact Or.inr (Or.inl ((quadraticChar_one_iff_isSquare h0).mpr hs))
  · exact Or.inr (Or.inr (quadraticChar_neg_one_iff_not_isSquare.mpr hs))

theorem exists_b_nonsquare (hodd : p % 2 = 1) (hp7 : 7 ≤ p) (a : ZMod p) (ha : a ≠ 0) :
    ∃ bw : ℕ, 2 ≤ bw ∧ bw < p ∧ ¬IsSquare ((bw : ZMod p) ^ 2 - 4 * a) := by
  classical
  by_contra hcon
  push_neg at hcon
  have h2 : (2 : ZMod p) ≠ 0 := two_ne_zero_zmod hodd
  have hc : (4 * a : ZMod p) ≠ 0 := by
    apply mul_ne_zero _ ha
    have : (4 : ZMod p) = 2 * 2 := by norm_num
    rw [this]
    exact mul_ne_zero h2 h2
  -- every nonzero x has a representative in [2, p)
  have Hx : ∀ x : ZMod p, x ≠ 0 → IsSquare (x ^ 2 - 4 * a) := by
    intro x hx
    by_cases hval : 2 ≤ x.val
    · have := hcon x.val hval (ZMod.val_lt x)
      rwa [ZMod.natCast_zmod_val] at this
    · have hval1 : x.val = 1 := by
        have h0 : x.val ≠ 0 := fun h => hx ((ZMod.val_eq_zero x).mp h)
        omega
      have hx1 : x = 1 := by
        have := ZMod.natCast_zmod_val x
        rw [hval1] at this
        simpa using this.symm
      have hrep : ((p - 1 : ℕ) : ZMod p) = -1 := by
        have h1 : ((p - 1 : ℕ) : ZMod p) = ((p : ℕ) : ZMod p) - 1 := by
          have := hpF.out.two_le
          push_cast [Nat.cast_sub (by omega : 1 ≤ p)]
          ring
        rw [h1, ZMod.natCast_self]
        ring
      have := hcon (p - 1) (by omega) (by omega)
      rw [hrep] at this
      rw [hx1]
      have hsq : (-1 : ZMod p) ^ 2 = (1 : ZMod p) ^ 2 := by ring
      rwa [hsq] at this
  -- the character sum
  have hsum := sum_quadChar_sq_sub hodd (4 * a) hc
  -- split off x = 0
  have hsplit := Finset.sum_erase_add univ
    (fun x : ZMod p => quadraticChar (ZMod p) (x ^ 2 - 4 * a)) (Finset.mem_univ 0)
  -- each term over nonzero x is 0 or 1
  have hterm : ∀ x ∈ univ.erase (0 : ZMod p),
      quadraticChar (ZMod p) (x ^ 2 - 4 * a) =
        if x ^ 2 - 4 * a = 0 then 0 else 1 := by
    intro x hx
    have hx0 : x ≠ 0 := Finset.ne_of_mem_erase hx
    by_cases hz : x ^ 2 - 4 * a = 0
    · rw [if_pos hz, hz, quadraticChar_zero]
    · rw [if_neg hz, (quadraticChar_one_iff_isSquare hz).mpr (Hx x hx0)]
  have hsum_erase : ∑ x ∈ univ.erase (0 : ZMod p), quadraticChar (ZMod p) (x ^ 2 - 4 * a) =
      ((univ.erase (0 : ZMod p)).filter fun x => ¬(x ^ 2 - 4 * a = 0)).card := by
    rw [Finset.sum_congr rfl hterm, Finset.sum_ite, Finset.sum_const, Finset.sum_const]
    simp
  -- zeros among nonzero x are square roots of 4a: at most two of them
  have hzeros : (((univ.erase (0 : ZMod p)).filter fun x => x ^ 2 - 4 * a = 0).card : ℤ) ≤ 2 := by
    have hsub : ((univ.erase (0 : ZMod p)).filter fun x => x ^ 2 - 4 * a = 0) ⊆
        univ.filter fun x => x ^ 2 = 4 * a := by
      intro x hx
      simp only [Finset.mem_filter, Finset.mem_erase, Finset.mem_univ, true_and] at hx ⊢
      linear_combination hx.2
    have hcard2 : ((univ.filter fun x : ZMod p => x ^ 2 = 4 * a).card : ℤ) =
        quadraticChar (ZMod p) (4 * a) + 1 := by
      have hchar2 : ringChar (ZMod p) ≠ 2 := by
        rw [ZMod.ringChar_zmod_n]
        omega
      have := quadraticChar_card_sqrts hchar2 (4 * a)
      rw [← this]
      congr 1
      rw [Set.toFinset_setOf]
    have hle := Finset.card_le_card hsub
    have hchi := quadChar_cases (p := p) (4 * a)
    have : ((((univ.erase (0 : ZMod p)).filter fun x => x ^ 2 - 4 * a = 0).card : ℤ)) ≤
        (((univ.filter fun x : ZMod p => x ^ 2 = 4 * a).card : ℤ)) := by
      exact_mod_cast hle
    rcases hchi with h | h | h <;> omega
  -- counting
  have hcount := Finset.filter_card_add_filter_neg_card_eq_card
    (s := univ.erase (0 : ZMod p)) (p := fun x => x ^ 2 - 4 * a = 0)
  have hcarderase : (univ.erase (0 : ZMod p)).card = p - 1 := by
    rw [Finset.card_erase_of_mem (Finset.mem_univ 0), Finset.card_univ, ZMod.card]
  have hchi0 := quadChar_cases (p := p) ((0 : ZMod p) ^ 2 - 4 * a)
  have hp2 := hpF.out.two_le
  rw [← hsplit] at hsum
  dsimp only at hsum
  rw [hsum_erase] at hsum
  rw [hcarderase] at hcount
  -- |erase| = p - 1 = zeros + nonzeros, zeros ≤ 2, sum = nonzeros, so nonzeros ≥ p - 3 ≥ 4
  -- but the total sum is -1 and the x = 0 term is ≥ -1: contradiction
  rcases hchi0 with h | h | h <;>
    · rw [h] at hsum
      omega

end CharSum


/-! ### C9, step 5: assembly -/

/-- The code's `jacobi(x, p) == -1` test detects exactly the nonsquares mod
an odd prime `p`. -/
theorem jacobiInt_neg_one_iff (p : Nat) [Fact p.Prime] (hodd : p % 2 = 1) (h3 : 3 ≤ p)
    (x : Int) : jacobiInt x p = -1 ↔ ¬IsSquare ((x : ZMod p)) := by
  rw [jacobiInt_correct x p hodd h3, ← jacobiSym.legendreSym.to_jacobiSym p x]
  exact legendreSym.eq_neg_one_iff p

/-- Transfer of a squaring identity in `ZMod p` back to `%`-arithmetic. -/
theorem sq_mod_of_zmod_eq (p : Nat) [NeZero p] (r a : Nat)
    (h : (r : ZMod p) * (r : ZMod p) = (a : ZMod p)) : r * r % p = a % p := by
  have h1 : (((r * r : Nat)) : ZMod p) = ((a : Nat) : ZMod p) := by push_cast; exact h
  have h2 := congrArg ZMod.val h1
  rwa [ZMod.val_natCast, ZMod.val_natCast] at h2

/-- For `p ≡ 5 (mod 8)`, `2` is a nonsquare, so `2^(p/2) = -1`. -/
theorem two_pow_half_eq_neg_one (p : Nat) [Fact p.Prime] (h85 : p % 8 = 5) :
    (2 : ZMod p) ^ (p / 2) = -1 := by
  have hp2 : p ≠ 2 := by omega
  have hchar : ringChar (ZMod p) ≠ 2 := by
    rw [ZMod.ringChar_zmod_n]
    omega
  have h2 : (2 : ZMod p) ≠ 0 := two_ne_zero_zmod (by omega)
  have hdich := FiniteField.pow_dichotomy hchar h2
  rw [ZMod.card] at hdich
  rcases hdich with h | h
  · exfalso
    have hsq : IsSquare (2 : ZMod p) := (ZMod.euler_criterion p h2).mpr h
    rw [ZMod.exists_sq_eq_two_iff hp2] at hsq
    omega
  · exact h

theorem neg_one_zmod_rep (p : Nat) [Fact p.Prime] : ((p - 1 : ℕ) : ZMod p) = -1 := by
  have h2 := (Fact.out : p.Prime).two_le
  have h1 : ((p - 1 : ℕ) : ZMod p) = ((p : ℕ) : ZMod p) - 1 := by
    push_cast [Nat.cast_sub (by omega : 1 ≤ p)]
    ring
  rw [h1, ZMod.natCast_self]
  ring

/-- Soundness of the `for b in range(2, p)` search. -/
theorem findBAux_sound : ∀ (fuel b0 a p b : Nat), findBAux fuel b0 a p = some b →
    jacobiInt ((b : Int) * b - 4 * a) p = -1 ∧ b < p := by
  intro fuel
  induction fuel with
  | zero =>
      intro b0 a p b h
      exact absurd h (by simp [findBAux])
  | succ n ih =>
      intro b0 a p b h
      rw [findBAux] at h
      by_cases hlt : b0 < p
      · rw [if_pos hlt] at h
        by_cases hj : jacobiInt ((b0 : Int) * b0 - 4 * a) p = -1
        · rw [if_pos hj] at h
          cases h
          exact ⟨hj, hlt⟩
        · rw [if_neg hj] at h
          exact ih _ _ _ _ h
      · rw [if_neg hlt] at h
        cases h

/-- Completeness of the `for b in range(2, p)` search: with enough fuel it
finds some `b` whenever a suitable one exists at or above the start index. -/
theorem findBAux_complete : ∀ (fuel b0 a p : Nat),
    (∃ b, b0 ≤ b ∧ b < p ∧ jacobiInt ((b : Int) * b - 4 * a) p = -1) →
    p ≤ b0 + fuel → (findBAux fuel b0 a p).isSome := by
  intro fuel
  induction fuel with
  | zero =>
      intro b0 a p hex hle
      obtain ⟨b, hb1, hb2, _⟩ := hex
      omega
  | succ n ih =>
      intro b0 a p hex hle
      obtain ⟨b, hb1, hb2, hbj⟩ := hex
      rw [findBAux]
      rw [if_pos (by omega : b0 < p)]
      by_cases hj : jacobiInt ((b0 : Int) * b0 - 4 * a) p = -1
      · rw [if_pos hj]
        rfl
      · rw [if_neg hj]
        have hne : b ≠ b0 := by
          intro hc
          subst hc
          exact hj hbj
        exact ih (b0 + 1) a p ⟨b, by omega, hb2, hbj⟩ (by omega)

open NumberTheorySymbols in
/-- Correctness of `square_root_mod_prime` at an odd prime modulus, on
reduced inputs: the `SquareRootError` is raised exactly on Jacobi symbol
`-1`, no other failure can occur, and a returned value squares to the
input modulo `p`. -/
theorem squareRootModPrime_correct (p : Nat) (hp : p.Prime) (hodd : p % 2 = 1)
    (a : Nat) (ha : a < p) :
    (squareRootModPrime a p = SqrtRes.nonResidue ↔ J((a : Int) | p) = -1) ∧
    squareRootModPrime a p ≠ SqrtRes.err ∧
    (∀ r, squareRootModPrime a p = SqrtRes.ok r → r * r % p = a % p) := by
  haveI : Fact p.Prime := ⟨hp⟩
  have h3 : 3 ≤ p := by
    have := hp.two_le
    omega
  have hJ : jacobiInt (a : Int) p = J((a : Int) | p) := jacobiInt_correct _ p hodd h3
  by_cases ha0 : a = 0
  · subst ha0
    have hres : squareRootModPrime 0 p = SqrtRes.ok 0 := by rw [squareRootModPrime]; simp
    rw [hres]
    refine ⟨?_, by simp, ?_⟩
    · simp only [reduceCtorEq, false_iff]
      rw [Nat.cast_zero, jacobiSym.zero_left (by omega : 1 < p)]
      omega
    · intro r hr
      cases hr
      simp
  have hane : (a : ZMod p) ≠ 0 := by
    rw [Ne, ZMod.natCast_zmod_eq_zero_iff_dvd]
    intro hdvd
    have := Nat.le_of_dvd (by omega) hdvd
    omega
  have hp2 : p ≠ 2 := by omega
  rw [squareRootModPrime, if_neg ha0, if_neg hp2]
  by_cases hj : jacobiInt (a : Int) p = -1
  · rw [if_pos hj]
    refine ⟨by rw [← hJ]; simp [hj], by simp, ?_⟩
    intro r hr
    cases hr
  rw [if_neg hj]
  -- since `a ≢ 0` and the Jacobi symbol is not -1, `a` is a nonzero square
  have hsq : IsSquare (a : ZMod p) := by
    by_contra hns
    apply hj
    rw [jacobiInt_neg_one_iff p hodd h3]
    push_cast
    exact hns
  have heuler : (a : ZMod p) ^ (p / 2) = 1 := (ZMod.euler_criterion p hane).mp hsq
  have hJne : ¬J((a : Int) | p) = -1 := by rw [← hJ]; exact hj
  by_cases h43 : p % 4 = 3
  · rw [if_pos h43]
    refine ⟨by simp [hJne], by simp, ?_⟩
    intro r hr
    cases hr
    apply sq_mod_of_zmod_eq
    rw [powmod_correct _ _ _ (by omega), zmod_natCast_pow, ← pow_add]
    have he : (p + 1) / 4 + (p + 1) / 4 = p / 2 + 1 := by omega
    rw [he, pow_succ, heuler, one_mul]
  rw [if_neg h43]
  by_cases h85 : p % 8 = 5
  · rw [if_pos h85]
    have hd : ((powmod a ((p - 1) / 4) p : Nat) : ZMod p) = (a : ZMod p) ^ ((p - 1) / 4) := by
      rw [powmod_correct _ _ _ (by omega), zmod_natCast_pow]
    have hdsq : (((powmod a ((p - 1) / 4) p : Nat) : ZMod p)) ^ 2 = 1 := by
      rw [hd, ← pow_mul]
      have : (p - 1) / 4 * 2 = p / 2 := by omega
      rw [this, heuler]
    have hdlt : powmod a ((p - 1) / 4) p < p := powmod_lt _ _ _ (by omega)
    have hdcases : powmod a ((p - 1) / 4) p = 1 ∨ powmod a ((p - 1) / 4) p = p - 1 := by
      have hdd := hdsq
      rw [pow_two] at hdd
      rcases mul_self_eq_one_iff.mp hdd with h | h
      · left
        have := congrArg ZMod.val h
        rwa [ZMod.val_cast_of_lt hdlt, ZMod.val_one p] at this
      · right
        rw [← neg_one_zmod_rep p] at h
        have := congrArg ZMod.val h
        rwa [ZMod.val_cast_of_lt hdlt, ZMod.val_cast_of_lt (by omega)] at this
    rcases hdcases with hd1 | hdm1
    · rw [if_pos hd1]
      refine ⟨by simp [hJne], by simp, ?_⟩
      intro r hr
      cases hr
      apply sq_mod_of_zmod_eq
      rw [powmod_correct _ _ _ (by omega), zmod_natCast_pow, ← pow_add]
      have he : (p + 3) / 8 + (p + 3) / 8 = (p - 1) / 4 + 1 := by omega
      rw [he, pow_succ]
      have : (a : ZMod p) ^ ((p - 1) / 4) = 1 := by
        rw [← hd, hd1]
        simp
      rw [this, one_mul]
    · have hd1 : ¬powmod a ((p - 1) / 4) p = 1 := by omega
      rw [if_neg hd1, if_pos hdm1]
      refine ⟨by simp [hJne], by simp, ?_⟩
      intro r hr
      cases hr
      apply sq_mod_of_zmod_eq
      -- the cast of the returned value
      have hδ : (a : ZMod p) ^ ((p - 1) / 4) = -1 := by
        rw [← hd, hdm1, neg_one_zmod_rep p]
      have hcast : ((2 * a * powmod (4 * a) ((p - 5) / 8) p % p : Nat) : ZMod p) =
          2 * (a : ZMod p) * ((4 : ZMod p) * a) ^ ((p - 5) / 8) := by
        rw [ZMod.natCast_mod]
        push_cast
        rw [powmod_correct _ _ _ (by omega), zmod_natCast_pow]
        push_cast
        ring
      rw [hcast]
      -- key exponent identity
      have h4a : ((4 : ZMod p) * a) ≠ 0 := by
        apply mul_ne_zero _ hane
        have h2 : (2 : ZMod p) ≠ 0 := two_ne_zero_zmod hodd
        have : (4 : ZMod p) = 2 * 2 := by norm_num
        rw [this]
        exact mul_ne_zero h2 h2
      have hpow1 : ((4 : ZMod p) * a) ^ ((p - 1) / 4) = 1 := by
        have h4 : (4 : ZMod p) = 2 ^ 2 := by norm_num
        rw [mul_pow, h4, ← pow_mul]
        have : 2 * ((p - 1) / 4) = p / 2 := by omega
        rw [this, two_pow_half_eq_neg_one p h85, hδ]
        ring
      have hsplit : ((4 : ZMod p) * a) ^ ((p - 5) / 8) *
          ((4 : ZMod p) * a) ^ ((p - 5) / 8) * ((4 : ZMod p) * a) = 1 := by
        rw [← pow_add, ← pow_succ]
        have : (p - 5) / 8 + (p - 5) / 8 + 1 = (p - 1) / 4 := by omega
        rw [this, hpow1]
      apply mul_right_cancel₀ h4a
      calc 2 * (a : ZMod p) * ((4 : ZMod p) * a) ^ ((p - 5) / 8) *
            (2 * (a : ZMod p) * ((4 : ZMod p) * a) ^ ((p - 5) / 8)) * ((4 : ZMod p) * a) =
          (4 : ZMod p) * a * a *
            (((4 : ZMod p) * a) ^ ((p - 5) / 8) *
              ((4 : ZMod p) * a) ^ ((p - 5) / 8) * ((4 : ZMod p) * a)) := by ring
        _ = (a : ZMod p) * ((4 : ZMod p) * a) := by rw [hsplit]; ring
  -- Cipolla branch: p ≡ 1 (mod 8)
  rw [if_neg h85]
  have h81 : p % 8 = 1 := by omega
  have hp7 : 7 ≤ p := by omega
  obtain ⟨bw, hbw2, hbwp, hbwns⟩ := exists_b_nonsquare hodd hp7 (a : ZMod p) hane
  have hwitJ : jacobiInt ((bw : Int) * bw - 4 * a) p = -1 := by
    rw [jacobiInt_neg_one_iff p hodd h3]
    intro hc
    apply hbwns
    have : (((bw : Int) * bw - 4 * (a : Nat) : Int) : ZMod p) =
        (bw : ZMod p) ^ 2 - 4 * (a : ZMod p) := by
      push_cast
      ring
    rwa [this] at hc
  have hsome := findBAux_complete p 2 a p ⟨bw, hbw2, hbwp, hwitJ⟩ (by omega)
  obtain ⟨b, hb⟩ := Option.isSome_iff_exists.mp hsome
  obtain ⟨hbJ, hbp⟩ := findBAux_sound p 2 a p b hb
  have hbns : ¬IsSquare ((b : ZMod p) * b - 4 * (a : ZMod p)) := by
    rw [jacobiInt_neg_one_iff p hodd h3] at hbJ
    intro hc
    apply hbJ
    have : (((b : Int) * b - 4 * (a : Nat) : Int) : ZMod p) =
        (b : ZMod p) * b - 4 * (a : ZMod p) := by
      push_cast
      ring
    rwa [this]
  haveI hirr : Fact (Irreducible (cPoly (b : ZMod p) (a : ZMod p))) :=
    ⟨cPoly_irreducible hbns⟩
  have he : (p + 1) / 2 % 2 = 1 := by omega
  obtain ⟨hgood, hval⟩ := polyExpMod_interp
    (algebraMap (ZMod p) (AdjoinRoot (cPoly (b : ZMod p) (a : ZMod p))))
    (AdjoinRoot.root (cPoly (b : ZMod p) (a : ZMod p)))
    (adjoin_theta_sq)
    (a : Int) (-(b : Int)) (by push_cast; ring) (by push_cast; ring) (by omega)
    ((p + 1) / 2) he
  obtain ⟨r, hrmap, hrsq⟩ := cipolla_root_exists (b := (b : ZMod p)) (c := (a : ZMod p))
    hodd hbns hane hsq
  obtain ⟨f0, f1, hff⟩ := goodList_shape hgood
  rw [hff] at hval
  rw [hff] at hgood
  have hbounds := hgood.2
  rw [interp] at hval
  simp only [List.getD_cons_zero, List.getD_cons_succ] at hval
  rw [← hrmap] at hval
  -- second coordinate must vanish: otherwise θ would lie in the base field
  have hf1 : ((f1 : Int) : ZMod p) = 0 := by
    by_contra hne
    have hfield : algebraMap (ZMod p) (AdjoinRoot (cPoly (b : ZMod p) (a : ZMod p)))
        ((r - ((f0 : Int) : ZMod p)) / ((f1 : Int) : ZMod p)) =
        AdjoinRoot.root (cPoly (b : ZMod p) (a : ZMod p)) := by
      rw [map_div₀, map_sub]
      rw [div_eq_iff (by
        intro hc
        apply hne
        exact (algebraMap (ZMod p) (AdjoinRoot (cPoly (b : ZMod p) (a : ZMod p)))).injective
          (by rw [hc, map_zero]))]
      linear_combination -hval
    exact theta_eq_zero_of_defining hodd hbns _ hfield
  have hf1z : f1 = 0 := by
    have hdvd : ((p : Nat) : Int) ∣ f1 := (ZMod.intCast_zmod_eq_zero_iff_dvd f1 p).mp hf1
    obtain ⟨k, hk⟩ := hdvd
    have hb0 := hbounds f1 (by simp)
    have hppos : (0 : Int) < (p : Int) := by exact_mod_cast (by omega : 0 < p)
    rcases lt_trichotomy k 0 with hk0 | hk0 | hk0
    · nlinarith [hb0.1]
    · subst hk0
      simpa using hk
    · nlinarith [hb0.2]
  have hf0 : ((f0 : Int) : ZMod p) = r := by
    apply (algebraMap (ZMod p) (AdjoinRoot (cPoly (b : ZMod p) (a : ZMod p)))).injective
    rw [hf1, map_zero, zero_mul, add_zero] at hval
    exact hval
  -- now discharge the code's final test
  simp only [hb, hff]
  have hget1 : ([f0, f1].getD 1 0 : Int) = f1 := rfl
  have hget0 : ([f0, f1].getD 0 0 : Int) = f0 := rfl
  rw [hget1, hget0, hf1z, if_pos rfl]
  refine ⟨by simp [hJne], by simp, ?_⟩
  intro r' hr'
  cases hr'
  apply sq_mod_of_zmod_eq
  have hf0nn : 0 ≤ f0 := (hbounds f0 (by simp)).1
  have hcast : ((f0.toNat : Nat) : ZMod p) = ((f0 : Int) : ZMod p) := by
    rw [← Int.toNat_of_nonneg hf0nn]
    push_cast
    rw [Int.toNat_of_nonneg hf0nn]
  rw [hcast, hf0, ← pow_two, hrsq]

open NumberTheorySymbols in
/-- C9: For every field element `a` modulo an odd prime `p`,
`square_root_mod_prime(a, p)` raises the non-residue `SquareRootError`
exactly when the Jacobi symbol of `a` modulo `p` is `-1`; when `a` is a
quadratic residue (or zero) it cannot fail and returns an `r` with
`r·r ≡ a (mod p)` (the branch being selected by `p mod 4` / `p mod 8`);
accordingly, at the fixed field modulus, `FQ.sqrt` returns `none` exactly on
Jacobi symbol `-1` and otherwise some `y` with `y·y = x`. -/
theorem fq_sqrt_correct :
    (∀ p : Nat, p.Prime → p % 2 = 1 → ∀ a : Nat, a < p →
      ((squareRootModPrime a p = SqrtRes.nonResidue ↔ J((a : Int) | p) = -1) ∧
        squareRootModPrime a p ≠ SqrtRes.err ∧
        ∀ r, squareRootModPrime a p = SqrtRes.ok r → r * r % p = a % p)) ∧
    (∀ x : Fq, (FQsqrt x = none ↔ J((x.val : Int) | JUBJUB_Q) = -1) ∧
      ∀ y : Fq, FQsqrt x = some y → y * y = x) := by
  refine ⟨squareRootModPrime_correct, ?_⟩
  intro x
  have hQodd : JUBJUB_Q % 2 = 1 := by norm_num [JUBJUB_Q, SNARK_SCALAR_FIELD]
  have hxlt : x.val < JUBJUB_Q := ZMod.val_lt x
  obtain ⟨hiff, herr, hok⟩ :=
    squareRootModPrime_correct JUBJUB_Q jubjub_q_prime hQodd x.val hxlt
  constructor
  · rw [← hiff]
    unfold FQsqrt
    cases hres : squareRootModPrime x.val JUBJUB_Q with
    | ok r => simp
    | nonResidue => simp
    | err => exact absurd hres herr
  · intro y hy
    unfold FQsqrt at hy
    cases hres : squareRootModPrime x.val JUBJUB_Q with
    | ok r =>
        rw [hres] at hy
        have hr := hok r hres
        cases hy
        have hc : ((r * r % JUBJUB_Q : Nat) : Fq) = ((x.val % JUBJUB_Q : Nat) : Fq) := by
          rw [hr]
        rw [ZMod.natCast_mod, ZMod.natCast_mod] at hc
        push_cast at hc
        rwa [fq_natCast_val] at hc
    | nonResidue =>
        rw [hres] at hy
        cases hy
    | err => exact absurd hres herr

open NumberTheorySymbols in
/-- Witness for C9 at the odd prime `p = 17` and residue `a = 2`. -/
theorem fq_sqrt_correct_witness :
    Nat.Prime 17 ∧ 17 % 2 = 1 ∧ 2 < 17 ∧
      ((squareRootModPrime 2 17 = SqrtRes.nonResidue ↔ J((2 : Int) | 17) = -1) ∧
        squareRootModPrime 2 17 ≠ SqrtRes.err ∧
        ∀ r, squareRootModPrime 2 17 = SqrtRes.ok r → r * r % 17 = 2 % 17) :=
  ⟨by norm_num, by decide, by decide,
    fq_sqrt_correct.1 17 (by norm_num) (by decide) 2 (by decide)⟩


/-! ### C5: point compression round-trip -/


theorem toBytesLE_length : ∀ k n, (toBytesLE k n).length = k := by
  intro k
  induction k with
  | zero => intro n; rfl
  | succ m ih =>
      intro n
      show (n % 256 :: toBytesLE m (n / 256)).length = m + 1
      rw [List.length_cons, ih]

theorem fromBytesLE_toBytesLE : ∀ k n, fromBytesLE (toBytesLE k n) = n % 256 ^ k := by
  intro k
  induction k with
  | zero => intro n; simp [toBytesLE, fromBytesLE, Nat.mod_one]
  | succ m ih =>
      intro n
      show fromBytesLE (n % 256 :: toBytesLE m (n / 256)) = n % 256 ^ (m + 1)
      show n % 256 + 256 * fromBytesLE (toBytesLE m (n / 256)) = n % 256 ^ (m + 1)
      rw [ih, pow_succ', Nat.mod_mul]

theorem lor_high (y s : Nat) (hy : y < 2 ^ 255) :
    y ||| (s <<< 255) = y + s * 2 ^ 255 := by
  rw [Nat.shiftLeft_eq, Nat.lor_comm, Nat.mul_comm s, ← Nat.mul_add_lt_is_or hy s]
  omega

theorem isNegativeFq_zero : isNegativeFq 0 = false := by
  unfold isNegativeFq
  simp

theorem isNegativeFq_neg (x : Fq) (hx : x ≠ 0) : isNegativeFq (-x) = !isNegativeFq x := by
  have hne : (-x).val ≠ x.val := by
    intro h
    apply hx
    have hcast := congrArg (fun v : Nat => ((v : Nat) : Fq)) h
    simp only [fq_natCast_val] at hcast
    have h2 : (2 : Fq) * x = 0 := by linear_combination -hcast
    rcases mul_eq_zero.mp h2 with h' | h'
    · exact absurd h' fq_two_ne_zero
    · exact h'
  unfold isNegativeFq
  rw [neg_neg]
  rcases Nat.lt_or_ge (-x).val x.val with h | h
  · rw [decide_eq_true h, decide_eq_false (by omega : ¬(x.val < (-x).val))]
    rfl
  · have hlt : x.val < (-x).val := by omega
    rw [decide_eq_true hlt, decide_eq_false (by omega : ¬((-x).val < x.val))]
    rfl

theorem FQsqrt_mul_self (x : Fq) : ∃ r : Fq, FQsqrt (x * x) = some r ∧ r * r = x * x := by
  have hQodd : JUBJUB_Q % 2 = 1 := by norm_num [JUBJUB_Q, SNARK_SCALAR_FIELD]
  have hlt : (x * x).val < JUBJUB_Q := ZMod.val_lt (x * x)
  obtain ⟨hiff, herr, hok⟩ :=
    squareRootModPrime_correct JUBJUB_Q jubjub_q_prime hQodd (x * x).val hlt
  have hnr : squareRootModPrime (x * x).val JUBJUB_Q ≠ SqrtRes.nonResidue := by
    intro hc
    have hj := hiff.mp hc
    rw [← jacobiSym.legendreSym.to_jacobiSym] at hj
    rw [legendreSym.eq_neg_one_iff] at hj
    apply hj
    push_cast [fq_natCast_val]
    exact ⟨x, rfl⟩
  cases hres : squareRootModPrime (x * x).val JUBJUB_Q with
  | ok r =>
      refine ⟨(r : Fq), by unfold FQsqrt; rw [hres], ?_⟩
      have hr := hok r hres
      have hc : ((r * r % JUBJUB_Q : Nat) : Fq) = (((x * x).val % JUBJUB_Q : Nat) : Fq) := by
        rw [hr]
      rw [ZMod.natCast_mod, ZMod.natCast_mod] at hc
      push_cast at hc
      rwa [fq_natCast_val] at hc
  | nonResidue => exact absurd hres hnr
  | err => exact absurd hres herr

theorem decompress_toBytes (yv s : Nat) (hy : yv < 2 ^ 255) (hs2 : s ≤ 1) :
    Point.decompress (toBytesLE 32 (yv ||| (s <<< 255))) = Point.fromY (yv : Fq) s := by
  rw [Point.decompress]
  rw [if_neg (by rw [toBytesLE_length]; omega)]
  show Point.fromY
      (((fromBytesLE (toBytesLE 32 (yv ||| (s <<< 255)))) &&& ((1 <<< 255) - 1) : Nat) : Fq)
      ((fromBytesLE (toBytesLE 32 (yv ||| (s <<< 255)))) >>> 255) = Point.fromY (yv : Fq) s
  rw [fromBytesLE_toBytesLE, lor_high yv s hy]
  have h256 : (256 : Nat) ^ 32 = 2 ^ 256 := by norm_num
  have hmod : (yv + s * 2 ^ 255) % 256 ^ 32 = yv + s * 2 ^ 255 := by
    rw [h256]
    omega
  rw [hmod]
  have hmask : (yv + s * 2 ^ 255) &&& ((1 <<< 255) - 1) = yv := by
    have h1 : (1 : Nat) <<< 255 = 2 ^ 255 := by
      rw [Nat.shiftLeft_eq]
      ring
    rw [h1, Nat.and_pow_two_sub_one_eq_mod]
    omega
  have hshift : (yv + s * 2 ^ 255) >>> 255 = s := by
    rw [Nat.shiftRight_eq_div_pow]
    omega
  rw [hmask, hshift]

/-- C5: For every valid affine point `P` on the curve,
`decompress(compress(P)) == P`: `compress` packs `y` little-endian into 32
bytes with the sign of `x` in the top bit of the last byte, and `decompress`
recovers `x` from the curve equation via the square root selected by that
sign bit. -/
theorem decompress_compress (P : Point) (hv : P.valid) :
    Point.decompress P.compress = some P := by
  obtain ⟨px, py⟩ := P
  rw [Point.valid] at hv
  simp only at hv
  have hQlt : JUBJUB_Q < 2 ^ 255 := by norm_num [JUBJUB_Q, SNARK_SCALAR_FIELD]
  have hylt : py.val < 2 ^ 255 := lt_trans (ZMod.val_lt py) hQlt
  have hden : jubjubD * (py * py) - jubjubA ≠ 0 := by
    intro h0
    have hy1 : py * py = 1 := by linear_combination hv + (px * px) * h0
    rw [hy1] at h0
    exact fq_a_sub_d_ne_zero (by linear_combination -h0)
  have hxsq : FQdiv (py * py - 1) (jubjubD * (py * py) - jubjubA) = px * px := by
    rw [FQdiv_eq_div, div_eq_iff hden]
    linear_combination hv
  obtain ⟨r, hr, hrr⟩ := FQsqrt_mul_self px
  have hcomp : Point.compress ⟨px, py⟩ =
      toBytesLE 32 (py.val ||| ((if isNegativeFq px then 1 else 0) <<< 255)) := rfl
  rw [hcomp, decompress_toBytes _ _ hylt (by split <;> omega), fq_natCast_val]
  rw [Point.fromY]
  show (match FQsqrt (FQdiv (py * py - 1) (jubjubD * (py * py) - jubjubA)) with
    | some x =>
        some (Point.mk (if (if isNegativeFq px then 1 else 0) ≠ 0 then
            (if xor (isNegativeFq x) (decide ((if isNegativeFq px then 1 else 0) ≠ 0))
              then -x else x)
          else (if isNegativeFq x then -x else x)) py)
    | none => none) = some (Point.mk px py)
  rw [hxsq, hr]
  simp only [Option.some.injEq, Point.mk.injEq]
  refine ⟨?_, trivial⟩
  rcases mul_self_eq_mul_self_iff.mp hrr with hre | hre
  · by_cases hneg : isNegativeFq px
    · have hrneg : isNegativeFq r = true := by rw [hre]; exact hneg
      simp only [hneg, hrneg]
      norm_num
      exact hre
    · have hrneg : isNegativeFq r = false := by rw [hre]; simpa using hneg
      simp only [hneg, hrneg]
      norm_num
      exact hre
  · by_cases hx0 : px = 0
    · have hr0 : r = 0 := by rw [hre, hx0, neg_zero]
      have hneg : isNegativeFq px = false := by rw [hx0]; exact isNegativeFq_zero
      simp only [hneg, hr0, isNegativeFq_zero]
      norm_num
      rw [hx0]
    · have hflip : isNegativeFq r = !isNegativeFq px := by
        rw [hre, isNegativeFq_neg px hx0]
      by_cases hneg : isNegativeFq px
      · have hrneg : isNegativeFq r = false := by rw [hflip, hneg]; rfl
        simp only [hneg, hrneg]
        norm_num
        rw [hre, neg_neg]
      · have hrneg : isNegativeFq r = true := by
          rw [hflip]
          simp only [Bool.not_eq_true] at hneg
          rw [hneg]
          rfl
        simp only [hneg, hrneg]
        norm_num
        rw [hre, neg_neg]

/-- Witness for C5 at the curve generator. -/
theorem decompress_compress_witness :
    Point.generator.valid ∧
      Point.decompress Point.generator.compress = some Point.generator :=
  ⟨by decide, decompress_compress Point.generator (by decide)⟩

/-! ### SHA-2 test vectors -/

/-- FIPS 180-4 test vector pinning the embedded sha256. -/
theorem sha256_abc : sha256 [97, 98, 99] = [186, 120, 22, 191, 143, 1, 207, 234, 65, 65, 64, 222, 93, 174, 34, 35, 176, 3, 97, 163, 150, 23, 122, 156, 180, 16, 255, 97, 242, 0, 21, 173] := by decide

/-- FIPS 180-4 test vector pinning the embedded sha512. -/
theorem sha512_abc : sha512 [97, 98, 99] = [221, 175, 53, 161, 147, 97, 122, 186, 204, 65, 115, 73, 174, 32, 65, 49, 18, 230, 250, 78, 137, 169, 126, 162, 10, 158, 238, 230, 75, 85, 211, 154, 33, 146, 153, 42, 39, 79, 193, 168, 54, 186, 60, 35, 163, 254, 235, 189, 69, 77, 68, 35, 100, 60, 232, 14, 42, 154, 201, 79, 165, 76, 164, 159] := by decide

/-! ### C2, C3, C4: the signing layer -/

theorem hashSecret_int_some (key : Fq) (M : Nat) (hM : M < 2 ^ 256) :
    hashSecret key [MsgArg.int M] =
      some (fromBytesLE (sha512 (toBytesLE 32 key.val ++ toBytesLE 32 M)) % JUBJUB_L) := by
  unfold hashSecret
  have hM2 : M < 115792089237316195423570985008687907853269984665640564039457584007913129639936 := by
    omega
  simp [toBytesArgs, msgToBytes, hM2]

theorem hashSecret_int_none (key : Fq) (M : Nat) (hM : ¬M < 2 ^ 256) :
    hashSecret key [MsgArg.int M] = none := by
  unfold hashSecret
  have hM2 : ¬M < 115792089237316195423570985008687907853269984665640564039457584007913129639936 := by
    omega
  simp [toBytesArgs, msgToBytes, hM2]

theorem asScalar_point_point_int (R A : Point) (M : Nat) :
    asScalar [MsgArg.point R, MsgArg.point A, MsgArg.int M] =
      some [R.x.val, R.y.val, A.x.val, A.y.val, M] := rfl

theorem poseidon_isSome (inputs : List Nat) (par : PoseidonParams)
    (h0 : inputs.length ≠ 0) (ht : inputs.length < par.t) :
    (poseidon inputs par).isSome = true := by
  unfold poseidon
  rw [if_neg (by omega)]
  rfl

theorem schemeSign_poseidon_some (par : PoseidonParams) (ht : 5 < par.t) (M : Nat)
    (key : Fq) (hk0 : key.val ≠ 0) (hkL : key.val < JUBJUB_L) (hM : M < 2 ^ 256) :
    (schemeSign (poseidonHashPublic par) M key).isSome = true := by
  unfold schemeSign
  rw [if_neg (by omega)]
  rw [hashSecret_int_some key M hM]
  simp only [Option.some_bind]
  simp only [poseidonHashPublic, asScalar_point_point_int, Option.some_bind]
  rw [Option.isSome_map']
  apply poseidon_isSome
  · simp
  · simpa using ht

/-- C3: `mimc_hash` ignores its inputs and returns the modulus. -/
theorem mimc_hash_constant :
    (∀ cs xs k, mimcHash cs xs k = SNARK_SCALAR_FIELD) ∧
      mimcHash [1] [1] 0 ≠ mimcHashChained [1] [1] 0 := by
  refine ⟨fun cs xs k => rfl, ?_⟩
  decide

/-- C2 (amended): `S = (r + key·t) % JUBJUB_E` — the full curve order, not
the subgroup order — and the signature stores `FQ(S)`. -/
theorem sign_scalar_mod_curve_order (hp : Point → Point → Nat → Option Nat) (M : Nat)
    (key : Fq) (hk0 : key.val ≠ 0) (hkL : key.val < JUBJUB_L) (hM : M < 2 ^ 256) :
    ∃ r : Nat, hashSecret key [MsgArg.int M] = some r ∧ r < JUBJUB_L ∧
      schemeSign hp M key =
        Option.map
          (fun t =>
            { A := Point.generator.mult key.val,
              sig := { R := Point.generator.mult r,
                       s := (((r + key.val * t) % JUBJUB_E : Nat) : Fq) },
              msg := M })
          (hp (Point.generator.mult r) (Point.generator.mult key.val) M) := by
  have hL : 0 < JUBJUB_L := by norm_num [JUBJUB_L, JUBJUB_E, JUBJUB_C]
  refine ⟨_, hashSecret_int_some key M hM, Nat.mod_lt _ hL, ?_⟩
  unfold schemeSign
  rw [if_neg (by omega)]
  rw [hashSecret_int_some key M hM]
  rfl

/-- Counterexample to C2 as stated: at `key = 10^38`, `M = 1`, with the MiMC
variant of `hash_public` (whose value is the constant `SNARK_SCALAR_FIELD`),
the stored scalar is not below the subgroup order `JUBJUB_L`. -/
theorem sign_scalar_exceeds_subgroup_order :
    Option.map (fun sm => sm.sig.s.val)
        (schemeSign (mimcHashPublic []) 1 ((10 ^ 38 : Nat) : Fq)) =
      some 15409426990740686075758734965427332752091546250108476877281949162106235851304 ∧
    ¬(15409426990740686075758734965427332752091546250108476877281949162106235851304 <
        JUBJUB_L) := by
  constructor
  · decide
  · decide

/-- C4 (amended): the canonicalization is `METHOD&URL&DATA` exactly as
specified, and the resulting sha256-mod-field scalar is signed with the
Poseidon EdDSA variant. -/
theorem url_eddsa_sign_canonical (par : PoseidonParams) (selfHost : List Nat) (req : Request)
    (key : Fq) :
    serialise selfHost req = serialiseSpec selfHost req ∧
    urlSign par selfHost req key =
      Option.bind (serialise selfHost req) fun canon =>
        schemeSign (poseidonHashPublic par) (fromBytesBE (sha256 canon) % SNARK_SCALAR_FIELD)
          key := by
  constructor
  · unfold serialise serialiseSpec
    by_cases hscheme : strHttp.isPrefixOf (if selfHost.isEmpty then req.host else selfHost) ∨
        strHttps.isPrefixOf (if selfHost.isEmpty then req.host else selfHost)
    · rw [if_neg (not_not_intro hscheme), if_neg (not_not_intro hscheme)]
      by_cases h1 : req.method = strGET ∨ req.method = strDELETE
      · rw [if_pos h1, if_pos h1]
        simp [List.intercalate]
      · rw [if_neg h1, if_neg h1]
        by_cases h2 : req.method = strPOST ∨ req.method = strPUT
        · rw [if_pos h2, if_pos h2]
          simp [List.intercalate]
        · rw [if_neg h2, if_neg h2]
          rfl
    · rw [if_pos hscheme, if_pos hscheme]
  · unfold urlSign urlHash
    cases serialise selfHost req <;> rfl

/-- Counterexample to C4 as stated: on a concrete GET request the claimed
Pedersen-variant pipeline fails for every possible Pedersen point-hash core
(`to_bits` raises `TypeError` on the integer message), while the actual code
path (Poseidon, any parameters with `t = 6` as in the source) produces a
signature. -/
theorem url_sign_not_pedersen :
    (∀ ph : List Nat → List Bool → Point, urlSignPedersen ph host0 req0 1 = none) ∧
    (∀ par : PoseidonParams, par.t = 6 → (urlSign par host0 req0 1).isSome = true) := by
  constructor
  · intro ph
    unfold urlSignPedersen
    cases hu : urlHash host0 req0 with
    | none => rfl
    | some m =>
        simp only [Option.some_bind]
        unfold schemeSign
        rw [if_neg (by decide)]
        by_cases hm : m < 2 ^ 256
        · rw [hashSecret_int_some 1 m hm]
          simp only [Option.some_bind]
          simp [pureEdDSAHashPublic, toBitsArgs, msgToBits]
        · rw [hashSecret_int_none 1 m hm]
          rfl
  · intro par hpt
    unfold urlSign
    have hser : (urlHash host0 req0).isSome = true := by decide
    obtain ⟨m, hm⟩ := Option.isSome_iff_exists.mp hser
    rw [hm]
    simp only [Option.some_bind]
    have hmlt : m < 2 ^ 256 := by
      unfold urlHash at hm
      cases hs : serialise host0 req0 with
      | none => rw [hs] at hm; cases hm
      | some s =>
          rw [hs] at hm
          simp only [Option.map_some', Option.some.injEq] at hm
          have hmod : fromBytesBE (sha256 s) % SNARK_SCALAR_FIELD < SNARK_SCALAR_FIELD :=
            Nat.mod_lt _ (by norm_num [SNARK_SCALAR_FIELD])
          have hfield : SNARK_SCALAR_FIELD < 2 ^ 256 := by norm_num [SNARK_SCALAR_FIELD]
          omega
    exact schemeSign_poseidon_some par (by omega) m 1 (by decide) (by decide) hmlt

/-- Witness for C2 at `key = 1`, `M = 0`, constant-zero `hash_public`. -/
theorem sign_scalar_mod_curve_order_witness :
    ((1 : Fq).val ≠ 0 ∧ (1 : Fq).val < JUBJUB_L ∧ (0 : Nat) < 2 ^ 256) ∧
      (∃ r : Nat, hashSecret 1 [MsgArg.int 0] = some r ∧ r < JUBJUB_L ∧
        schemeSign (fun _ _ _ => some 0) 0 1 =
          Option.map
            (fun t =>
              { A := Point.generator.mult (1 : Fq).val,
                sig := { R := Point.generator.mult r,
                         s := (((r + (1 : Fq).val * t) % JUBJUB_E : Nat) : Fq) },
                msg := 0 })
            ((fun _ _ _ => some (0 : Nat)) (Point.generator.mult r)
              (Point.generator.mult (1 : Fq).val) 0)) :=
  ⟨⟨by decide, by decide, by decide⟩,
    sign_scalar_mod_curve_order (fun _ _ _ => some 0) 0 1 (by decide) (by decide) (by decide)⟩


end LoopringSDK
